import Mathlib

/-! # AVL tree (`AVL_tree.c`): embedding and verification

The C program keeps an AVL tree of heap nodes `{key, value, height, left, right}`
and mutates it in place.  Every node is owned by exactly one parent slot, so a
pointer `AVL_Node*` is embedded as the tree hanging off it: `NULL` or a node with
its five fields.  `int` keys are only compared, never computed with, and cached
heights of trees built by the public operations are bounded by the node count,
so both are embedded as `Int`.

Two features of the C code are kept explicit:

* dereferencing `NULL` (or a freed node) has no defined result: such a step is
  `Except.error Err.badAccess`;
* `delete` calls itself on the *same* node in the two-children case, so its
  recursion is not structural: it takes a fuel argument and answers
  `Except.error Err.outOfFuel` when the fuel is used up.

A rotation both returns the new subtree root and updates the node object it was
called on.  `delete` discards the pointer returned by its inner call
`delete(node, succ->key)` and goes on using `node`, so the functions that
rearrange nodes return a pair: the tree at the returned pointer and the tree
that hangs off the original node object after the call.
-/

namespace AVL

/-- Reasons for which a call yields no result. -/
inductive Err where
  | badAccess
  | outOfFuel
  deriving DecidableEq, Repr

/-- The tree at an `AVL_Node*`: `NULL`, or a node with the fields of `struct avl_node`
in declaration order. -/
inductive AVL_Node (V : Type) where
  | NULL : AVL_Node V
  | node (key : Int) (value : V) (height : Int) (left right : AVL_Node V) : AVL_Node V
  deriving DecidableEq, Repr

open AVL_Node

variable {V : Type}

/-- Source function `height`: 0 for `NULL`, else the cached height field. -/
def height : AVL_Node V → Int
  | NULL => 0
  | node _ _ h _ _ => h

/-- Source function `update_height`: recomputes the cached height from the children's cached heights,
branch for branch as in the source. -/
def update_height : AVL_Node V → Except Err (AVL_Node V)
  | NULL => .error Err.badAccess
  | node key value _ NULL NULL => .ok (node key value 1 NULL NULL)
  | node key value _ NULL (node rk rv rh rl rr) =>
      .ok (node key value (height (node rk rv rh rl rr) + 1) NULL (node rk rv rh rl rr))
  | node key value _ (node lk lv lh ll lr) NULL =>
      .ok (node key value (height (node lk lv lh ll lr) + 1) (node lk lv lh ll lr) NULL)
  | node key value h (node lk lv lh ll lr) (node rk rv rh rl rr) =>
      let left_height := height (node lk lv lh ll lr)
      let right_height := height (node rk rv rh rl rr)
      if left_height ≥ right_height then
        .ok (node key value (left_height + 1) (node lk lv lh ll lr) (node rk rv rh rl rr))
      else if right_height > left_height then
        .ok (node key value (right_height + 1) (node lk lv lh ll lr) (node rk rv rh rl rr))
      else
        .ok (node key value h (node lk lv lh ll lr) (node rk rv rh rl rr))

/-- Source function `balance_factor`: cached height of the left subtree minus that of the right one,
0 for `NULL`. -/
def balance_factor : AVL_Node V → Int
  | NULL => 0
  | node _ _ _ left right => height left - height right

/-- Source function `right_rotation`: returns the new root (the former left child) and the state of the
node object the rotation was called on. -/
def right_rotation : AVL_Node V → Except Err (AVL_Node V × AVL_Node V)
  | node key value h (node lk lv lh ll lr) right =>
      match update_height (node key value h lr right) with
      | .error e => .error e
      | .ok n =>
        match update_height (node lk lv lh ll n) with
        | .error e => .error e
        | .ok holder => .ok (holder, n)
  | _ => .error Err.badAccess

/-- Source function `left_rotation`: mirror image of `right_rotation`. -/
def left_rotation : AVL_Node V → Except Err (AVL_Node V × AVL_Node V)
  | node key value h left (node rk rv rh rl rr) =>
      match update_height (node key value h left rl) with
      | .error e => .error e
      | .ok n =>
        match update_height (node rk rv rh n rr) with
        | .error e => .error e
        | .ok holder => .ok (holder, n)
  | _ => .error Err.badAccess

/-- Source function `right_left_rotation`: right rotation of the right child, then left
rotation of the node. -/
def right_left_rotation : AVL_Node V → Except Err (AVL_Node V × AVL_Node V)
  | node key value h left right =>
      match right_rotation right with
      | .error e => .error e
      | .ok (r, _) => left_rotation (node key value h left r)
  | NULL => .error Err.badAccess

/-- Source function `left_right_rotation`: left rotation of the left child, then right
rotation of the node. -/
def left_right_rotation : AVL_Node V → Except Err (AVL_Node V × AVL_Node V)
  | node key value h left right =>
      match left_rotation left with
      | .error e => .error e
      | .ok (l, _) => right_rotation (node key value h l right)
  | NULL => .error Err.badAccess

/-- The loop of `successor`: `while (succ->left != NULL) succ = succ->left;`. -/
def successor_loop : AVL_Node V → Except Err (AVL_Node V)
  | NULL => .error Err.badAccess
  | node key value h NULL right => .ok (node key value h NULL right)
  | node _ _ _ (node lk lv lh ll lr) _ => successor_loop (node lk lv lh ll lr)

/-- Source function `successor`: the leftmost node of the right subtree. -/
def successor : AVL_Node V → Except Err (AVL_Node V)
  | NULL => .error Err.badAccess
  | node _ _ _ _ right => successor_loop right

/-- Source function `create_node`: a leaf of height 1. -/
def create_node (key : Int) (value : V) : AVL_Node V :=
  node key value 1 NULL NULL

/-- Source function `search`: the subtree at the returned pointer, `NULL` when nothing is found. -/
def search : AVL_Node V → Int → AVL_Node V
  | NULL, _ => NULL
  | node k value h left right, key =>
      if k = key then node k value h left right
      else if key < k then search left key
      else if key > k then search right key
      else node k value h left right

/-- Lines 194-218 of `insert`: read the balance factor once and apply the rotation the
decision table selects.  Returns the new head and the state of the node object. -/
def insert_rebalance (n : AVL_Node V) : Except Err (AVL_Node V × AVL_Node V) :=
  let balance := balance_factor n
  if balance < -1 then
    match n with
    | NULL => .error Err.badAccess
    | node _ _ _ _ right =>
      if balance_factor right > 0 then right_left_rotation n
      else left_rotation n
  else if balance > 1 then
    match n with
    | NULL => .error Err.badAccess
    | node _ _ _ left _ =>
      if balance_factor left < 0 then left_right_rotation n
      else right_rotation n
  else .ok (n, n)

/-- Source function `insert`. An existing key returns the node as it is (line 180-183). -/
def insert : AVL_Node V → Int → V → Except Err (AVL_Node V)
  | NULL, key, value => .ok (create_node key value)
  | node k v h left right, key, value =>
      if k = key then .ok (node k v h left right)
      else if key < k then
        match insert left key value with
        | .error e => .error e
        | .ok l =>
          match update_height (node k v h l right) with
          | .error e => .error e
          | .ok n =>
            match insert_rebalance n with
            | .error e => .error e
            | .ok (new_head, _) => .ok new_head
      else if key > k then
        match insert right key value with
        | .error e => .error e
        | .ok r =>
          match update_height (node k v h left r) with
          | .error e => .error e
          | .ok n =>
            match insert_rebalance n with
            | .error e => .error e
            | .ok (new_head, _) => .ok new_head
      else
        match insert_rebalance (node k v h left right) with
        | .error e => .error e
        | .ok (new_head, _) => .ok new_head

/-- Lines 263-288 of `delete`: `update_height(node)`, then the two `if`s on the balance
factor read once before them.  The pair threaded through is (new head, node object). -/
def delete_rebalance (n0 : AVL_Node V) : Except Err (AVL_Node V × AVL_Node V) :=
  match update_height n0 with
  | .error e => .error e
  | .ok n =>
    let balance := balance_factor n
    let step1 : Except Err (AVL_Node V × AVL_Node V) :=
      if balance < -1 then
        match n with
        | NULL => .error Err.badAccess
        | node _ _ _ _ right =>
          if balance_factor right > 0 then right_left_rotation n
          else left_rotation n
      else .ok (n, n)
    match step1 with
    | .error e => .error e
    | .ok (new_head, n1) =>
      if balance > 1 then
        match n1 with
        | NULL => .error Err.badAccess
        | node _ _ _ left _ =>
          if balance_factor left < 0 then left_right_rotation n1
          else right_rotation n1
      else .ok (new_head, n1)

/-- Source function `delete`, with fuel for the recursion.  The first component is the tree
at the returned pointer.  The second is the tree hanging off the node object the call was made on; it is
`NULL` when there is no such object any more (a `NULL` argument, or the freed leaf).

In the two-children case the source runs `delete(node, succ->key)`, drops what it returns,
and then writes the successor's key and the node's own value (`value_update = node->value`)
into `node`. -/
def delete : Nat → AVL_Node V → Int → Except Err (AVL_Node V × AVL_Node V)
  | 0, _, _ => .error Err.outOfFuel
  | _ + 1, NULL, _ => .ok (NULL, NULL)
  | fuel + 1, node k v h left right, key =>
      if key < k then
        match delete fuel left key with
        | .error e => .error e
        | .ok (l, _) => delete_rebalance (node k v h l right)
      else if key > k then
        match delete fuel right key with
        | .error e => .error e
        | .ok (r, _) => delete_rebalance (node k v h left r)
      else if k = key then
        match left, right with
        | NULL, NULL => .ok (NULL, NULL)
        | NULL, node rk rv rh rl rr => .ok (node rk rv rh rl rr, node k v h NULL (node rk rv rh rl rr))
        | node lk lv lh ll lr, NULL => .ok (node lk lv lh ll lr, node k v h (node lk lv lh ll lr) NULL)
        | node lk lv lh ll lr, node rk rv rh rl rr =>
          match successor (node k v h (node lk lv lh ll lr) (node rk rv rh rl rr)) with
          | .error e => .error e
          | .ok NULL => .error Err.badAccess
          | .ok (node key_update _ _ _ _) =>
            let value_update := v
            match delete fuel (node k v h (node lk lv lh ll lr) (node rk rv rh rl rr)) key_update with
            | .error e => .error e
            | .ok (_, NULL) => .error Err.badAccess
            | .ok (_, node _ _ h1 l1 r1) =>
              delete_rebalance (node key_update value_update h1 l1 r1)
      else delete_rebalance (node k v h left right)

/-! ## Observations on trees -/

/-- In-order sequence of (key, value) pairs: left subtree, node, right subtree. -/
def inorder : AVL_Node V → List (Int × V)
  | NULL => []
  | node k v _ l r => inorder l ++ (k, v) :: inorder r

/-- In-order sequence of keys. -/
def keys : AVL_Node V → List Int
  | NULL => []
  | node k _ _ l r => keys l ++ k :: keys r

/-- Number of nodes. -/
def size : AVL_Node V → Nat
  | NULL => 0
  | node _ _ _ l r => size l + size r + 1

/-- Height recomputed by walking the tree, 0 for an absent subtree. -/
def realHeight : AVL_Node V → Int
  | NULL => 0
  | node _ _ _ l r => 1 + max (realHeight l) (realHeight r)

/-- BST invariant: at every node all keys on the left are smaller and all keys on the
right are greater. -/
def BST : AVL_Node V → Prop
  | NULL => True
  | node k _ _ l r => BST l ∧ BST r ∧ (∀ x ∈ keys l, x < k) ∧ (∀ x ∈ keys r, k < x)

/-- AVL balance invariant on the cached heights. -/
def Balanced : AVL_Node V → Prop
  | NULL => True
  | node _ _ _ l r => Balanced l ∧ Balanced r ∧ |height l - height r| ≤ 1

/-- Height correctness: every cached height is 1 + max of the children's heights. -/
def HeightOK : AVL_Node V → Prop
  | NULL => True
  | node _ _ h l r => HeightOK l ∧ HeightOK r ∧ h = 1 + max (height l) (height r)

instance decBST : (t : AVL_Node V) → Decidable (BST t)
  | NULL => isTrue trivial
  | node k _ _ l r =>
      have := decBST l
      have := decBST r
      inferInstanceAs (Decidable (BST l ∧ BST r ∧ (∀ x ∈ keys l, x < k) ∧ (∀ x ∈ keys r, k < x)))

instance decBalanced : (t : AVL_Node V) → Decidable (Balanced t)
  | NULL => isTrue trivial
  | node _ _ _ l r =>
      have := decBalanced l
      have := decBalanced r
      inferInstanceAs (Decidable (Balanced l ∧ Balanced r ∧ |height l - height r| ≤ 1))

instance decHeightOK : (t : AVL_Node V) → Decidable (HeightOK t)
  | NULL => isTrue trivial
  | node _ _ h l r =>
      have := decHeightOK l
      have := decHeightOK r
      inferInstanceAs (Decidable (HeightOK l ∧ HeightOK r ∧ h = 1 + max (height l) (height r)))

/-! ## Auxiliary notions for the proofs -/

/-- The node with key `k`, value `v` and children `l`, `r` whose cached height is recomputed. -/
def mk (k : Int) (v : V) (l r : AVL_Node V) : AVL_Node V :=
  node k v (1 + max (height l) (height r)) l r

/-- The node object `sf` is the root of `hd` or one of its two children. -/
def Near (sf hd : AVL_Node V) : Prop :=
  sf = hd ∨ (∃ k v h o, hd = node k v h sf o) ∨ (∃ k v h o, hd = node k v h o sf)

/-- Height correctness against the height recomputed by walking the tree. -/
def HeightTrue : AVL_Node V → Prop
  | NULL => True
  | node _ _ h l r => HeightTrue l ∧ HeightTrue r ∧ h = 1 + max (realHeight l) (realHeight r)

/-- Trees obtained from the empty tree by a finite sequence of `insert` and `delete` calls
that return. -/
inductive Reachable : AVL_Node V → Prop
  | empty : Reachable NULL
  | insert {t t1 : AVL_Node V} (k : Int) (v : V) :
      Reachable t → insert t k v = .ok t1 → Reachable t1
  | delete {t t1 sf : AVL_Node V} (fuel : Nat) (k : Int) :
      Reachable t → delete fuel t k = .ok (t1, sf) → Reachable t1

/-- Inserts the pairs of a list one after the other, starting from `t`. -/
def insert_all : List (Int × V) → AVL_Node V → Except Err (AVL_Node V)
  | [], t => .ok t
  | (k, v) :: rest, t =>
      match insert t k v with
      | .error e => .error e
      | .ok t1 => insert_all rest t1

/-! ## Concrete trees used as inputs -/

/-- The tree obtained by inserting the keys 10, 20, 30, 25 (with values 1, 2, 3, 4). -/
def ex_scenario : AVL_Node Nat :=
  node 20 2 3 (node 10 1 1 NULL NULL) (node 30 3 2 (node 25 4 1 NULL NULL) NULL)

/-- The tree obtained by inserting the keys 3, 2, 4, 1 (with values 30, 20, 40, 10). -/
def ex_left_heavy : AVL_Node Nat :=
  node 3 30 3 (node 2 20 2 (node 1 10 1 NULL NULL) NULL) (node 4 40 1 NULL NULL)

/-- Keys inserted to build `ex_fourteen`, each with value 0. -/
def ex_fourteen_keys : List (Int × Nat) :=
  [(5, 0), (3, 0), (10, 0), (2, 0), (4, 0), (7, 0), (12, 0), (1, 0), (6, 0), (8, 0),
   (11, 0), (13, 0), (9, 0), (14, 0)]

/-- A balanced tree with 14 nodes: the left child of the root is a left-heavy node with two
children, the right child of the root is one level higher. -/
def ex_fourteen : AVL_Node Nat :=
  node 5 0 5
    (node 3 0 3 (node 2 0 2 (node 1 0 1 NULL NULL) NULL) (node 4 0 1 NULL NULL))
    (node 10 0 4
      (node 7 0 3 (node 6 0 1 NULL NULL) (node 8 0 2 NULL (node 9 0 1 NULL NULL)))
      (node 12 0 3 (node 11 0 1 NULL NULL) (node 13 0 2 NULL (node 14 0 1 NULL NULL))))

/-- What `delete` returns for key 3 on `ex_fourteen`. -/
def ex_fourteen_after : AVL_Node Nat :=
  node 10 0 5
    (node 5 0 4 (node 4 0 1 NULL NULL)
      (node 7 0 3 (node 6 0 1 NULL NULL) (node 8 0 2 NULL (node 9 0 1 NULL NULL))))
    (node 12 0 3 (node 11 0 1 NULL NULL) (node 13 0 2 NULL (node 14 0 1 NULL NULL)))

/-- The tree with the values erased: shape, keys and cached heights only. -/
def shape : AVL_Node V → AVL_Node Unit
  | NULL => NULL
  | node k _ h l r => node k () h (shape l) (shape r)

/-- One output line of `printf("%*s %d [%d]\n", offset, "", node->key, node->height)`:
`offset` blanks, then the key and the cached height in brackets. -/
structure Line where
  offset : Int
  key : Int
  height : Int
  deriving DecidableEq, Repr

/-- Source function `print_tree_inorder_`: the lines written, in the order they are written. -/
def print_tree_inorder_ : AVL_Node V → Int → List Line
  | NULL, _ => []
  | node key _ h left right, offset =>
      print_tree_inorder_ right (offset + 1) ++ ⟨offset, key, h⟩ :: print_tree_inorder_ left (offset + 1)

/-- Source function `print_tree_inorder`. -/
def print_tree_inorder (node : AVL_Node V) : List Line :=
  print_tree_inorder_ node 0

/-- The tree obtained by inserting the keys 2, 1, 3 (with values 20, 10, 30). -/
def ex_three : AVL_Node Nat :=
  node 2 20 2 (node 1 10 1 NULL NULL) (node 3 30 1 NULL NULL)

/-- The right child left behind when 10, 20, 30 are chained to the right. -/
def ex_chain : AVL_Node Nat :=
  node 20 2 2 NULL (node 30 3 1 NULL NULL)

/-- A perfect tree of height `n`: all levels full and the cached heights correct. -/
def Perfect : Nat → AVL_Node V → Prop
  | 0, NULL => True
  | n + 1, node _ _ h l r => h = (n : Int) + 1 ∧ Perfect n l ∧ Perfect n r
  | _, _ => False

/-- Shape of the trees met while keys are inserted in increasing order: along the right spine
every left subtree is perfect and the right subtree is as high as the left one or one higher;
cached heights are correct. -/
def Spine : AVL_Node V → Prop
  | NULL => True
  | node _ _ h l r =>
      h = 1 + max (height l) (height r) ∧ (∃ p, Perfect p l) ∧ Spine r ∧
        height l ≤ height r ∧ height r ≤ height l + 1

/-- The list of the keys 1, 2, ..., n in increasing order, the key `i + 1` with value `vals i`. -/
def ascending (vals : Nat → V) (n : Nat) : List (Int × V) :=
  (List.range n).map (fun i : Nat => ((i : Int) + 1, vals i))

/-! ## Heights, rotations and the rebalancing step -/

theorem height_NULL : height (NULL : AVL_Node V) = 0 := rfl

theorem height_node (k : Int) (v : V) (h : Int) (l r : AVL_Node V) :
    height (node k v h l r) = h := rfl

theorem balance_factor_node (k : Int) (v : V) (h : Int) (l r : AVL_Node V) :
    balance_factor (node k v h l r) = height l - height r := rfl

theorem height_nonneg : ∀ (t : AVL_Node V), HeightOK t → 0 ≤ height t
  | NULL, _ => by simp [height_NULL]
  | node _ _ h l r, ht => by
      obtain ⟨hl, hr, hh⟩ := ht
      have := height_nonneg l hl
      have := height_nonneg r hr
      simp only [height_node]; omega

theorem update_height_eq (k : Int) (v : V) (h : Int) (l r : AVL_Node V)
    (hl : 0 ≤ height l) (hr : 0 ≤ height r) :
    update_height (node k v h l r) = .ok (mk k v l r) := by
  cases l <;> cases r <;> simp only [update_height, mk, height_NULL, height_node] at * 
  · simp
  · congr 2; omega
  · congr 2; omega
  · split_ifs <;> (congr 2; omega)

theorem height_mk (k : Int) (v : V) (l r : AVL_Node V) :
    height (mk k v l r) = 1 + max (height l) (height r) := rfl

theorem heightOK_mk (k : Int) (v : V) (l r : AVL_Node V) :
    HeightOK (mk k v l r) ↔ HeightOK l ∧ HeightOK r := by
  simp [mk, HeightOK]

theorem heightOK_node_eq_mk {k : Int} {v : V} {h : Int} {l r : AVL_Node V}
    (ht : HeightOK (node k v h l r)) : node k v h l r = mk k v l r := by
  obtain ⟨_, _, hh⟩ := ht
  simp [mk, hh]

theorem inorder_mk (k : Int) (v : V) (l r : AVL_Node V) :
    inorder (mk k v l r) = inorder l ++ (k, v) :: inorder r := rfl

theorem balanced_mk (k : Int) (v : V) (l r : AVL_Node V) :
    Balanced (mk k v l r) ↔ Balanced l ∧ Balanced r ∧ |height l - height r| ≤ 1 := Iff.rfl

theorem right_rotation_eq (k : Int) (v : V) (h : Int) (lk : Int) (lv : V) (lh : Int)
    (ll lr r : AVL_Node V) (h1 : 0 ≤ height ll) (h2 : 0 ≤ height lr) (h3 : 0 ≤ height r) :
    right_rotation (node k v h (node lk lv lh ll lr) r)
      = .ok (mk lk lv ll (mk k v lr r), mk k v lr r) := by
  have h4 : 0 ≤ height (mk k v lr r) := by rw [height_mk]; omega
  simp only [right_rotation, update_height_eq _ _ _ _ _ h2 h3, update_height_eq _ _ _ _ _ h1 h4]

theorem left_rotation_eq (k : Int) (v : V) (h : Int) (rk : Int) (rv : V) (rh : Int)
    (l rl rr : AVL_Node V) (h1 : 0 ≤ height l) (h2 : 0 ≤ height rl) (h3 : 0 ≤ height rr) :
    left_rotation (node k v h l (node rk rv rh rl rr))
      = .ok (mk rk rv (mk k v l rl) rr, mk k v l rl) := by
  have h4 : 0 ≤ height (mk k v l rl) := by rw [height_mk]; omega
  simp only [left_rotation, update_height_eq _ _ _ _ _ h1 h2, update_height_eq _ _ _ _ _ h4 h3]

theorem insert_rebalance_spec (k : Int) (v : V) (l r : AVL_Node V)
    (hl : HeightOK l) (hr : HeightOK r) :
    ∃ hd sf, insert_rebalance (mk k v l r) = .ok (hd, sf) ∧ HeightOK hd
      ∧ inorder hd = inorder l ++ (k, v) :: inorder r
      ∧ (∃ h1 l1 r1, sf = node k v h1 l1 r1) ∧ Near sf hd
      ∧ (|height l - height r| ≤ 1 → hd = mk k v l r ∧ sf = mk k v l r)
      ∧ (Balanced l → Balanced r → |height l - height r| ≤ 2 →
          Balanced hd ∧ (height hd = 1 + max (height l) (height r)
            ∨ (height hd + 1 = 1 + max (height l) (height r) ∧ 1 < |height l - height r|))) := by
  have nl := height_nonneg l hl
  have nr := height_nonneg r hr
  have e : insert_rebalance (mk k v l r)
      = insert_rebalance (node k v (1 + max (height l) (height r)) l r) := rfl
  rw [e]
  by_cases c1 : height l - height r < -1
  · -- right-heavy
    cases r with
    | NULL => simp only [height_NULL, height_node] at *; omega
    | node rk rv rh rl rr =>
      obtain ⟨hrl, hrr, hrh⟩ := hr
      have nrl := height_nonneg rl hrl
      have nrr := height_nonneg rr hrr
      simp only [height_NULL, height_node] at *
      by_cases c3 : height rl - height rr > 0
      · cases rl with
        | NULL => simp only [height_NULL, height_node] at *; omega
        | node mk_ mv mh ml mr =>
          obtain ⟨hml, hmr, hmh⟩ := hrl
          have nml := height_nonneg ml hml
          have nmr := height_nonneg mr hmr
          simp only [height_NULL, height_node] at *
          simp only [insert_rebalance, balance_factor_node, height_NULL, height_node, c1, c3, if_true,
            right_left_rotation, right_rotation_eq _ _ _ _ _ _ _ _ _ nml nmr nrr]
          rw [mk, left_rotation_eq _ _ _ _ _ _ _ _ _ nl nml (by rw [height_mk]; omega)]
          refine ⟨_, _, rfl, ?_, ?_, ⟨_, _, _, rfl⟩, Or.inr (Or.inl ⟨_, _, _, _, rfl⟩), ?_, ?_⟩
          · simp only [heightOK_mk]; exact ⟨⟨hl, hml⟩, hmr, hrr⟩
          · simp [inorder_mk, inorder]
          · intro hb; rw [abs_le] at hb; omega
          · intro bl br hb
            obtain ⟨brl, brr, hbr⟩ := br
            obtain ⟨bml, bmr, hbm⟩ := brl
            rw [abs_le] at hb hbr hbm
            simp only [height_NULL, height_node] at *
            simp only [balanced_mk, height_mk, abs_le, height_NULL, height_node, lt_abs]
            refine ⟨⟨⟨bl, bml, ?_⟩, ⟨bmr, brr, ?_⟩, ?_⟩, ?_⟩ <;> omega
      · simp only [insert_rebalance, balance_factor_node, height_NULL, height_node, c1, c3, if_true, if_false]
        rw [left_rotation_eq _ _ _ _ _ _ _ _ _ nl nrl nrr]
        refine ⟨_, _, rfl, ?_, ?_, ⟨_, _, _, rfl⟩, Or.inr (Or.inl ⟨_, _, _, _, rfl⟩), ?_, ?_⟩
        · simp only [heightOK_mk]; exact ⟨⟨hl, hrl⟩, hrr⟩
        · simp [inorder_mk, inorder]
        · intro hb; rw [abs_le] at hb; omega
        · intro bl br hb
          obtain ⟨brl, brr, hbr⟩ := br
          rw [abs_le] at hb hbr
          simp only [height_NULL, height_node] at *
          simp only [balanced_mk, height_mk, abs_le, height_NULL, height_node, lt_abs]
          refine ⟨⟨⟨bl, brl, ?_⟩, brr, ?_⟩, ?_⟩ <;> omega
  · by_cases c2 : height l - height r > 1
    · cases l with
      | NULL => simp only [height_NULL, height_node] at *; omega
      | node lk lv lh ll lr =>
        obtain ⟨hll, hlr, hlh⟩ := hl
        have nll := height_nonneg ll hll
        have nlr := height_nonneg lr hlr
        simp only [height_NULL, height_node] at *
        by_cases c3 : height ll - height lr < 0
        · cases lr with
          | NULL => simp only [height_NULL, height_node] at *; omega
          | node mk_ mv mh ml mr =>
            obtain ⟨hml, hmr, hmh⟩ := hlr
            have nml := height_nonneg ml hml
            have nmr := height_nonneg mr hmr
            simp only [height_NULL, height_node] at *
            simp only [insert_rebalance, balance_factor_node, height_NULL, height_node, c1, c2, c3, if_true, if_false,
              left_right_rotation, left_rotation_eq _ _ _ _ _ _ _ _ _ nll nml nmr]
            rw [mk, right_rotation_eq _ _ _ _ _ _ _ _ _ (by rw [height_mk]; omega) nmr nr]
            refine ⟨_, _, rfl, ?_, ?_, ⟨_, _, _, rfl⟩, Or.inr (Or.inr ⟨_, _, _, _, rfl⟩), ?_, ?_⟩
            · simp only [heightOK_mk]; exact ⟨⟨hll, hml⟩, hmr, hr⟩
            · simp [inorder_mk, inorder]
            · intro hb; rw [abs_le] at hb; omega
            · intro bl br hb
              obtain ⟨bll, blr, hbl⟩ := bl
              obtain ⟨bml, bmr, hbm⟩ := blr
              rw [abs_le] at hb hbl hbm
              simp only [height_NULL, height_node] at *
              simp only [balanced_mk, height_mk, abs_le, height_NULL, height_node, lt_abs]
              refine ⟨⟨⟨bll, bml, ?_⟩, ⟨bmr, br, ?_⟩, ?_⟩, ?_⟩ <;> omega
        · simp only [insert_rebalance, balance_factor_node, height_NULL, height_node, c1, c2, c3, if_true, if_false]
          rw [right_rotation_eq _ _ _ _ _ _ _ _ _ nll nlr nr]
          refine ⟨_, _, rfl, ?_, ?_, ⟨_, _, _, rfl⟩, Or.inr (Or.inr ⟨_, _, _, _, rfl⟩), ?_, ?_⟩
          · simp only [heightOK_mk]; exact ⟨hll, hlr, hr⟩
          · simp [inorder_mk, inorder]
          · intro hb; rw [abs_le] at hb; omega
          · intro bl br hb
            obtain ⟨bll, blr, hbl⟩ := bl
            rw [abs_le] at hb hbl
            simp only [height_NULL, height_node] at *
            simp only [balanced_mk, height_mk, abs_le, height_NULL, height_node, lt_abs]
            refine ⟨⟨bll, ⟨blr, br, ?_⟩, ?_⟩, ?_⟩ <;> omega
    · simp only [insert_rebalance, balance_factor_node, c1, c2, if_false]
      refine ⟨_, _, rfl, ⟨hl, hr, rfl⟩, rfl, ⟨_, _, _, rfl⟩, Or.inl rfl, fun _ => ⟨rfl, rfl⟩, ?_⟩
      intro bl br _
      refine ⟨⟨bl, br, ?_⟩, Or.inl rfl⟩
      rw [abs_le]; omega

theorem delete_rebalance_eq (k : Int) (v : V) (h : Int) (l r : AVL_Node V)
    (hl : HeightOK l) (hr : HeightOK r) :
    delete_rebalance (node k v h l r) = insert_rebalance (mk k v l r) := by
  have nl := height_nonneg l hl
  have nr := height_nonneg r hr
  obtain ⟨hd, sf, e, -, -, ⟨h1, l1, r1, rfl⟩, -⟩ := insert_rebalance_spec k v l r hl hr
  have e2 := e
  unfold insert_rebalance at e2
  unfold delete_rebalance
  rw [update_height_eq k v h l r nl nr, e]
  simp only []
  by_cases c1 : balance_factor (mk k v l r) < -1
  · have c2 : ¬ balance_factor (mk k v l r) > 1 := by omega
    simp only [c1, c2, if_true, if_false] at e2 ⊢
    simp only [mk] at e2 ⊢
    rw [e2]
  · by_cases c2 : balance_factor (mk k v l r) > 1
    · simp only [c1, c2, if_true, if_false] at e2 ⊢
      simp only [mk] at e2 ⊢
      exact e2
    · simp only [c1, c2, if_true, if_false] at e2 ⊢
      exact e2

theorem keys_eq_map : ∀ t : AVL_Node V, keys t = (inorder t).map Prod.fst
  | NULL => rfl
  | node k v h l r => by simp [keys, inorder, keys_eq_map l, keys_eq_map r]

theorem BST_iff_sorted : ∀ t : AVL_Node V, BST t ↔ (keys t).Pairwise (· < ·)
  | NULL => by simp [BST, keys]
  | node k v h l r => by
      simp only [BST, keys, List.pairwise_append, List.pairwise_cons, List.mem_cons,
        BST_iff_sorted l, BST_iff_sorted r]
      constructor
      · rintro ⟨a, b, c, d⟩
        refine ⟨a, ⟨d, b⟩, ?_⟩
        rintro x hx y (rfl | hy)
        · exact c x hx
        · exact lt_trans (c x hx) (d y hy)
      · rintro ⟨a, ⟨d, b⟩, c⟩
        exact ⟨a, b, fun x hx => c x hx k (Or.inl rfl), d⟩

theorem heightOK_of_near {sf hd : AVL_Node V} (hn : Near sf hd) (h : HeightOK hd) : HeightOK sf := by
  rcases hn with rfl | ⟨k, v, h', o, rfl⟩ | ⟨k, v, h', o, rfl⟩
  · exact h
  · exact h.1
  · exact h.2.1

theorem BST_of_near {sf hd : AVL_Node V} (hn : Near sf hd) (h : BST hd) : BST sf := by
  rcases hn with rfl | ⟨k, v, h', o, rfl⟩ | ⟨k, v, h', o, rfl⟩
  · exact h
  · exact h.1
  · exact h.2.1

theorem keys_of_near {sf hd : AVL_Node V} (hn : Near sf hd) : ∀ x ∈ keys sf, x ∈ keys hd := by
  rcases hn with rfl | ⟨k, v, h', o, rfl⟩ | ⟨k, v, h', o, rfl⟩
  · exact fun x hx => hx
  · intro x hx; simp [keys, hx]
  · intro x hx; simp [keys, hx]


theorem insert_spec (k : Int) (v : V) : ∀ t : AVL_Node V, HeightOK t →
    ∃ t', insert t k v = .ok t' ∧ HeightOK t'
      ∧ (Balanced t → Balanced t' ∧ (height t' = height t ∨ height t' = height t + 1))
      ∧ (BST t → (k ∈ keys t → inorder t' = inorder t ∧ (Balanced t → t' = t))
           ∧ (k ∉ keys t → ∃ xs ys, inorder t = xs ++ ys ∧ inorder t' = xs ++ (k, v) :: ys
                 ∧ (∀ p ∈ xs, p.1 < k) ∧ (∀ p ∈ ys, k < p.1)))
  | NULL, _ => by
      refine ⟨create_node k v, rfl, ⟨trivial, trivial, by simp [height_NULL]⟩, ?_, ?_⟩
      · intro _
        exact ⟨⟨trivial, trivial, by simp [height_NULL]⟩, Or.inr (by simp [create_node, height_NULL, height_node])⟩
      · intro _
        refine ⟨fun hk => by simp [keys] at hk, fun _ => ⟨[], [], rfl, rfl, ?_, ?_⟩⟩ <;> simp
  | node k0 v0 h0 l r, ht => by
      obtain ⟨hl, hr, hh⟩ := ht
      have nl := height_nonneg l hl
      have nr := height_nonneg r hr
      have et : node k0 v0 h0 l r = mk k0 v0 l r := heightOK_node_eq_mk ⟨hl, hr, hh⟩
      by_cases c0 : k0 = k
      · refine ⟨node k0 v0 h0 l r, by simp [insert, c0], ⟨hl, hr, hh⟩, fun b => ⟨b, Or.inl rfl⟩, ?_⟩
        intro _
        exact ⟨fun _ => ⟨rfl, fun _ => rfl⟩, fun hk => absurd (by simp [keys, c0]) hk⟩
      · by_cases c1 : k < k0
        · obtain ⟨l', el, hl', bl', sl'⟩ := insert_spec k v l hl
          have nl' := height_nonneg l' hl'
          obtain ⟨hd, sf, e, hhd, ihd, -, -, same, bal⟩ := insert_rebalance_spec k0 v0 l' r hl' hr
          refine ⟨hd, ?_, hhd, ?_, ?_⟩
          · simp only [insert, c0, c1, if_true, if_false, el, update_height_eq k0 v0 h0 l' r nl' nr, e]
          · rintro ⟨bl, br, hb⟩
            obtain ⟨bl2, hh2⟩ := bl' bl
            rw [abs_le] at hb
            have hb2 : |height l' - height r| ≤ 2 := by rw [abs_le]; omega
            obtain ⟨bhd, hhd2⟩ := bal bl2 br hb2
            refine ⟨bhd, ?_⟩
            simp only [height_node, lt_abs] at hhd2 ⊢
            omega
          · rintro ⟨sl, sr, kl, kr⟩
            obtain ⟨p1, p2⟩ := sl' sl
            have hkr : k ∉ keys r := fun hk => by have := kr k hk; omega
            constructor
            · intro hk
              have hkl : k ∈ keys l := by
                simp only [keys, List.mem_append, List.mem_cons] at hk
                rcases hk with hk | hk | hk
                · exact hk
                · omega
                · exact absurd hk hkr
              obtain ⟨q1, q2⟩ := p1 hkl
              refine ⟨by rw [ihd, q1, inorder], ?_⟩
              rintro ⟨bl, br, hb⟩
              have := q2 bl
              subst this
              rw [(same hb).1, et]
            · intro hk
              have hkl : k ∉ keys l := fun h => hk (by simp [keys, h])
              obtain ⟨xs, ys, e1, e2, f1, f2⟩ := p2 hkl
              refine ⟨xs, ys ++ (k0, v0) :: inorder r, by simp [inorder, e1], by simp [ihd, e2], f1, ?_⟩
              intro p hp
              simp only [List.mem_append, List.mem_cons] at hp
              rcases hp with hp | rfl | hp
              · exact f2 p hp
              · exact c1
              · have : p.1 ∈ keys r := by rw [keys_eq_map]; exact List.mem_map_of_mem _ hp
                have := kr _ this
                omega
        · have c2 : k > k0 := by omega
          obtain ⟨r', er, hr', br', sr'⟩ := insert_spec k v r hr
          have nr' := height_nonneg r' hr'
          obtain ⟨hd, sf, e, hhd, ihd, -, -, same, bal⟩ := insert_rebalance_spec k0 v0 l r' hl hr'
          refine ⟨hd, ?_, hhd, ?_, ?_⟩
          · simp only [insert, c0, c1, c2, if_true, if_false, er, update_height_eq k0 v0 h0 l r' nl nr', e]
          · rintro ⟨bl, br, hb⟩
            obtain ⟨br2, hh2⟩ := br' br
            rw [abs_le] at hb
            have hb2 : |height l - height r'| ≤ 2 := by rw [abs_le]; omega
            obtain ⟨bhd, hhd2⟩ := bal bl br2 hb2
            refine ⟨bhd, ?_⟩
            simp only [height_node, lt_abs] at hhd2 ⊢
            omega
          · rintro ⟨sl, sr, kl, kr⟩
            obtain ⟨p1, p2⟩ := sr' sr
            have hkl : k ∉ keys l := fun hk => by have := kl k hk; omega
            constructor
            · intro hk
              have hkr : k ∈ keys r := by
                simp only [keys, List.mem_append, List.mem_cons] at hk
                rcases hk with hk | hk | hk
                · exact absurd hk hkl
                · omega
                · exact hk
              obtain ⟨q1, q2⟩ := p1 hkr
              refine ⟨by rw [ihd, q1, inorder], ?_⟩
              rintro ⟨bl, br, hb⟩
              have := q2 br
              subst this
              rw [(same hb).1, et]
            · intro hk
              have hkr : k ∉ keys r := fun h => hk (by simp [keys, h])
              obtain ⟨xs, ys, e1, e2, f1, f2⟩ := p2 hkr
              refine ⟨inorder l ++ (k0, v0) :: xs, ys, by simp [inorder, e1], by simp [ihd, e2], ?_, f2⟩
              intro p hp
              simp only [List.mem_append, List.mem_cons] at hp
              rcases hp with hp | rfl | hp
              · have : p.1 ∈ keys l := by rw [keys_eq_map]; exact List.mem_map_of_mem _ hp
                have := kl _ this
                omega
              · exact c2
              · exact f1 p hp


theorem successor_loop_spec : ∀ (k : Int) (v : V) (h : Int) (l r : AVL_Node V),
    ∃ sk sv sh sr rest, successor_loop (node k v h l r) = .ok (node sk sv sh NULL sr)
      ∧ inorder (node k v h l r) = (sk, sv) :: rest
  | k, v, h, NULL, r => ⟨k, v, h, r, inorder r, rfl, rfl⟩
  | k, v, h, node lk lv lh ll lr, r => by
      obtain ⟨sk, sv, sh, sr, rest, e1, e2⟩ := successor_loop_spec lk lv lh ll lr
      refine ⟨sk, sv, sh, sr, rest ++ (k, v) :: inorder r, ?_, ?_⟩
      · rw [successor_loop, e1]
      · rw [inorder, e2]; rfl

theorem BST_of_inorder_eq {a b : AVL_Node V} (h : inorder a = inorder b) (hb : BST b) : BST a := by
  rw [BST_iff_sorted, keys_eq_map] at *
  rw [h]; exact hb

theorem keys_of_inorder_eq {a b : AVL_Node V} (h : inorder a = inorder b) : keys a = keys b := by
  rw [keys_eq_map, keys_eq_map, h]

theorem BST_mk {k : Int} {v : V} {l r : AVL_Node V} :
    BST (mk k v l r) ↔ BST l ∧ BST r ∧ (∀ x ∈ keys l, x < k) ∧ (∀ x ∈ keys r, k < x) := Iff.rfl

theorem keys_mk (k : Int) (v : V) (l r : AVL_Node V) : keys (mk k v l r) = keys l ++ k :: keys r := rfl

theorem keys_node (k : Int) (v : V) (h : Int) (l r : AVL_Node V) :
    keys (node k v h l r) = keys l ++ k :: keys r := rfl

theorem size_node (k : Int) (v : V) (h : Int) (l r : AVL_Node V) :
    size (node k v h l r) = size l + size r + 1 := rfl

theorem delete_spec : ∀ (t : AVL_Node V) (key : Int) (fuel : Nat),
    BST t → HeightOK t → 2 * size t + 1 ≤ fuel →
    ∃ ret sf, delete fuel t key = .ok (ret, sf) ∧ HeightOK ret ∧ BST ret
      ∧ (∀ x ∈ keys ret, x ∈ keys t ∧ x ≠ key)
      ∧ (∀ k v h l r, t = node k v h l r → key ≠ k →
          (∃ h1 l1 r1, sf = node k v h1 l1 r1) ∧ Near sf ret)
  | NULL, key, fuel, _, _, hf => by
      obtain ⟨f, rfl⟩ : ∃ f, fuel = f + 1 := ⟨fuel - 1, by omega⟩
      refine ⟨NULL, NULL, rfl, trivial, trivial, ?_, ?_⟩
      · intro x hx; simp [keys] at hx
      · intro k v h l r e; cases e
  | node k v h l r, key, fuel, hb, ht, hf => by
      obtain ⟨f, rfl⟩ : ∃ f, fuel = f + 1 := ⟨fuel - 1, by omega⟩
      obtain ⟨hl, hr, hh⟩ := ht
      obtain ⟨sl, sr, kl, kr⟩ := hb
      rw [size_node] at hf
      by_cases c1 : key < k
      · obtain ⟨l', sf0, el, hl', sl', kl', -⟩ := delete_spec l key f sl hl (by omega)
        obtain ⟨hd, sf, e, hhd, ihd, hsf, near, -, -⟩ := insert_rebalance_spec k v l' r hl' hr
        have bn : BST (mk k v l' r) := ⟨sl', sr, fun x hx => kl x (kl' x hx).1, kr⟩
        refine ⟨hd, sf, ?_, hhd, BST_of_inorder_eq (b := mk k v l' r) ihd bn, ?_, ?_⟩
        · simp only [delete, c1, if_true, el, delete_rebalance_eq k v h l' r hl' hr, e]
        · intro x hx
          rw [keys_of_inorder_eq (b := mk k v l' r) ihd, keys_mk] at hx
          simp only [List.mem_append, List.mem_cons, keys_node] at hx ⊢
          rcases hx with hx | rfl | hx
          · exact ⟨Or.inl (kl' x hx).1, (kl' x hx).2⟩
          · exact ⟨Or.inr (Or.inl rfl), by omega⟩
          · exact ⟨Or.inr (Or.inr hx), by have := kr x hx; omega⟩
        · intro k2 v2 h2 l2 r2 e2 _
          cases e2
          exact ⟨hsf, near⟩
      · by_cases c2 : key > k
        · obtain ⟨r', sf0, er, hr', sr', kr', -⟩ := delete_spec r key f sr hr (by omega)
          obtain ⟨hd, sf, e, hhd, ihd, hsf, near, -, -⟩ := insert_rebalance_spec k v l r' hl hr'
          have bn : BST (mk k v l r') := ⟨sl, sr', kl, fun x hx => kr x (kr' x hx).1⟩
          refine ⟨hd, sf, ?_, hhd, BST_of_inorder_eq (b := mk k v l r') ihd bn, ?_, ?_⟩
          · simp only [delete, c1, c2, if_true, if_false, er, delete_rebalance_eq k v h l r' hl hr', e]
          · intro x hx
            rw [keys_of_inorder_eq (b := mk k v l r') ihd, keys_mk] at hx
            simp only [List.mem_append, List.mem_cons, keys_node] at hx ⊢
            rcases hx with hx | rfl | hx
            · exact ⟨Or.inl hx, by have := kl x hx; omega⟩
            · exact ⟨Or.inr (Or.inl rfl), by omega⟩
            · exact ⟨Or.inr (Or.inr (kr' x hx).1), (kr' x hx).2⟩
          · intro k2 v2 h2 l2 r2 e2 _
            cases e2
            exact ⟨hsf, near⟩
        · have c3 : k = key := by omega
          subst c3
          have nosf : ∀ (sf ret : AVL_Node V) (k2 : Int) (v2 : V) (h2 : Int) (l2 r2 : AVL_Node V),
              node k v h l r = node k2 v2 h2 l2 r2 → k ≠ k2 →
              (∃ h1 l1 r1, sf = node k2 v2 h1 l1 r1) ∧ Near sf ret := by
            intro sf ret k2 v2 h2 l2 r2 e2 ne
            cases e2
            exact absurd rfl ne
          cases l with
          | NULL =>
            cases r with
            | NULL =>
              refine ⟨NULL, NULL, by simp [delete], trivial, trivial, ?_, nosf _ _⟩
              intro x hx; simp [keys] at hx
            | node rk rv rh rl rr =>
              refine ⟨node rk rv rh rl rr, node k v h NULL (node rk rv rh rl rr), by simp [delete], hr, sr, ?_, nosf _ _⟩
              intro x hx
              exact ⟨by rw [keys_node k]; simp [hx], by have := kr x hx; omega⟩
          | node lk lv lh ll lr =>
            cases r with
            | NULL =>
              refine ⟨node lk lv lh ll lr, node k v h (node lk lv lh ll lr) NULL, by simp [delete], hl, sl, ?_, nosf _ _⟩
              intro x hx
              exact ⟨by rw [keys_node k]; simp [hx], by have := kl x hx; omega⟩
            | node rk rv rh rl rr =>
              obtain ⟨sk, sv, sh, sr0, rest, es, ei⟩ := successor_loop_spec rk rv rh rl rr
              have ekr : keys (node rk rv rh rl rr) = sk :: rest.map Prod.fst := by
                rw [keys_eq_map, ei]; rfl
              have skr : sk ∈ keys (node rk rv rh rl rr) := by rw [ekr]; simp
              have skmin : ∀ x ∈ keys (node rk rv rh rl rr), x ≠ sk → sk < x := by
                have hs := (BST_iff_sorted _).1 sr
                rw [ekr] at hs ⊢
                intro x hx ne
                rcases List.mem_cons.1 hx with rfl | hx
                · exact absurd rfl ne
                · exact (List.pairwise_cons.1 hs).1 x hx
              have ksk : k < sk := kr sk skr
              obtain ⟨f1, rfl⟩ : ∃ f1, f = f1 + 1 := ⟨f - 1, by omega⟩
              obtain ⟨r', sf0, er, hr', sr', kr', -⟩ :=
                delete_spec (node rk rv rh rl rr) sk f1 sr hr (by omega)
              obtain ⟨hd1, sf1, e1, hhd1, ihd1, ⟨h1, l1, r1, rfl⟩, near1, -, -⟩ :=
                insert_rebalance_spec k v (node lk lv lh ll lr) r' hl hr'
              have bn1 : BST (mk k v (node lk lv lh ll lr) r') :=
                ⟨sl, sr', kl, fun x hx => kr x (kr' x hx).1⟩
              have bhd1 : BST hd1 := BST_of_inorder_eq (b := mk k v (node lk lv lh ll lr) r') ihd1 bn1
              obtain ⟨sl1, sr1, kl1, kr1⟩ := BST_of_near near1 bhd1
              obtain ⟨hl1, hr1, -⟩ := heightOK_of_near near1 hhd1
              have sub1 : ∀ x ∈ keys (node k v h1 l1 r1),
                  x ∈ keys (node lk lv lh ll lr) ∨ x = k ∨ x ∈ keys r' := by
                intro x hx
                have := keys_of_near near1 x hx
                rw [keys_of_inorder_eq (b := mk k v (node lk lv lh ll lr) r') ihd1, keys_mk] at this
                simpa only [List.mem_append, List.mem_cons] using this
              have inner : delete (f1 + 1) (node k v h (node lk lv lh ll lr) (node rk rv rh rl rr)) sk
                  = .ok (hd1, node k v h1 l1 r1) := by
                have n1 : ¬ sk < k := by omega
                simp only [delete, n1, ksk, gt_iff_lt, if_true, if_false, er,
                  delete_rebalance_eq k v h (node lk lv lh ll lr) r' hl hr', e1]
              obtain ⟨hd2, sf2, e2, hhd2, ihd2, -, -, -, -⟩ := insert_rebalance_spec sk v l1 r1 hl1 hr1
              have fl1 : ∀ x ∈ keys l1, x ∈ keys (node lk lv lh ll lr) := by
                intro x hx
                have hlt := kl1 x hx
                rcases sub1 x (by rw [keys_node]; simp [hx]) with h | h | h
                · exact h
                · omega
                · have := kr x (kr' x h).1; omega
              have fr1 : ∀ x ∈ keys r1, x ∈ keys (node rk rv rh rl rr) ∧ x ≠ sk := by
                intro x hx
                have hgt := kr1 x hx
                rcases sub1 x (by rw [keys_node]; simp [hx]) with h | h | h
                · have := kl x h; omega
                · omega
                · exact kr' x h
              have bn2 : BST (mk sk v l1 r1) :=
                ⟨sl1, sr1, fun x hx => by have := kl1 x hx; omega,
                  fun x hx => skmin x (fr1 x hx).1 (fr1 x hx).2⟩
              refine ⟨hd2, sf2, ?_, hhd2, BST_of_inorder_eq (b := mk sk v l1 r1) ihd2 bn2, ?_, nosf _ _⟩
              · have n1 : ¬ k < k := by omega
                rw [delete]
                simp only [n1, gt_iff_lt, if_true, if_false, successor, es, inner,
                  delete_rebalance_eq sk v h1 l1 r1 hl1 hr1, e2]
              · intro x hx
                rw [keys_of_inorder_eq (b := mk sk v l1 r1) ihd2, keys_mk] at hx
                rw [keys_node k]
                simp only [List.mem_append, List.mem_cons] at hx ⊢
                rcases hx with hx | rfl | hx
                · exact ⟨Or.inl (fl1 x hx), by have := kl1 x hx; omega⟩
                · exact ⟨Or.inr (Or.inr skr), by omega⟩
                · exact ⟨Or.inr (Or.inr (fr1 x hx).1), by have := kr1 x hx; omega⟩

theorem search_of_not_mem (k : Int) : ∀ t : AVL_Node V, k ∉ keys t → search t k = NULL
  | NULL, _ => rfl
  | node k0 v0 h0 l r, hk => by
      simp only [keys_node, List.mem_append, List.mem_cons, not_or] at hk
      obtain ⟨h1, h2, h3⟩ := hk
      have c0 : ¬ k0 = k := fun e => h2 e.symm
      rw [search]
      simp only [c0, if_false]
      split_ifs with c1 c2
      · exact search_of_not_mem k l h1
      · exact search_of_not_mem k r h3
      · omega

theorem search_of_mem (k : Int) (v : V) : ∀ t : AVL_Node V, BST t → (k, v) ∈ inorder t →
    ∃ h l r, search t k = node k v h l r
  | NULL, _, hm => by simp [inorder] at hm
  | node k0 v0 h0 l r, hb, hm => by
      obtain ⟨sl, sr, kl, kr⟩ := hb
      simp only [inorder, List.mem_append, List.mem_cons] at hm
      rcases hm with hm | hm | hm
      · have hk : k ∈ keys l := by rw [keys_eq_map]; exact List.mem_map_of_mem Prod.fst hm
        have := kl k hk
        have c0 : ¬ k0 = k := by omega
        rw [search]
        simp only [c0, this, if_true, if_false]
        exact search_of_mem k v l sl hm
      · cases hm
        exact ⟨h0, l, r, by rw [search]; simp⟩
      · have hk : k ∈ keys r := by rw [keys_eq_map]; exact List.mem_map_of_mem Prod.fst hm
        have := kr k hk
        have c0 : ¬ k0 = k := by omega
        have c1 : ¬ k < k0 := by omega
        rw [search]
        simp only [c0, c1, this, gt_iff_lt, if_true, if_false]
        exact search_of_mem k v r sr hm

theorem size_eq_length : ∀ t : AVL_Node V, size t = (inorder t).length
  | NULL => rfl
  | node k v h l r => by
      simp only [size, inorder, List.length_append, List.length_cons, size_eq_length l, size_eq_length r]
      omega

theorem delete_node_lt (fuel : Nat) (k : Int) (v : V) (h : Int) (l r : AVL_Node V) (key : Int)
    (c : key < k) :
    delete (fuel + 1) (node k v h l r) key =
      match delete fuel l key with
      | .error e => .error e
      | .ok (l1, _) => delete_rebalance (node k v h l1 r) := by
  cases l <;> cases r <;> simp only [delete, c, if_true]

theorem delete_node_gt (fuel : Nat) (k : Int) (v : V) (h : Int) (l r : AVL_Node V) (key : Int)
    (c : key > k) :
    delete (fuel + 1) (node k v h l r) key =
      match delete fuel r key with
      | .error e => .error e
      | .ok (r1, _) => delete_rebalance (node k v h l r1) := by
  have c1 : ¬ key < k := by omega
  cases l <;> cases r <;> simp only [delete, c, c1, if_true, if_false]

theorem delete_node_two (fuel : Nat) (k : Int) (v : V) (h : Int) (lk : Int) (lv : V) (lh : Int)
    (ll lr : AVL_Node V) (rk : Int) (rv : V) (rh : Int) (rl rr : AVL_Node V) :
    delete (fuel + 1) (node k v h (node lk lv lh ll lr) (node rk rv rh rl rr)) k =
      match successor (node k v h (node lk lv lh ll lr) (node rk rv rh rl rr)) with
      | .error e => .error e
      | .ok NULL => .error Err.badAccess
      | .ok (node key_update _ _ _ _) =>
        match delete fuel (node k v h (node lk lv lh ll lr) (node rk rv rh rl rr)) key_update with
        | .error e => .error e
        | .ok (_, NULL) => .error Err.badAccess
        | .ok (_, node _ _ h1 l1 r1) => delete_rebalance (node key_update v h1 l1 r1) := by
  have c1 : ¬ k < k := by omega
  rw [delete]
  simp only [c1, gt_iff_lt, if_true, if_false]

theorem delete_fuel_succ : ∀ (f : Nat) (t : AVL_Node V) (k : Int) (res : AVL_Node V × AVL_Node V),
    delete f t k = .ok res → delete (f + 1) t k = .ok res
  | 0, _, _, _, h => by simp [delete] at h
  | f + 1, NULL, k, res, h => by simpa [delete] using h
  | f + 1, node k0 v0 h0 l r, k, res, h => by
      by_cases c1 : k < k0
      · rw [delete_node_lt _ _ _ _ _ _ _ c1] at h ⊢
        cases e : delete f l k with
        | error err => rw [e] at h; cases h
        | ok p => rw [delete_fuel_succ f l k p e]; rw [e] at h; exact h
      · by_cases c2 : k > k0
        · rw [delete_node_gt _ _ _ _ _ _ _ c2] at h ⊢
          cases e : delete f r k with
          | error err => rw [e] at h; cases h
          | ok p => rw [delete_fuel_succ f r k p e]; rw [e] at h; exact h
        · have c3 : k = k0 := by omega
          subst c3
          cases l with
          | NULL => cases r <;> simpa [delete] using h
          | node lk lv lh ll lr =>
            cases r with
            | NULL => simpa [delete] using h
            | node rk rv rh rl rr =>
              rw [delete_node_two] at h ⊢
              cases es : successor (node k v0 h0 (node lk lv lh ll lr) (node rk rv rh rl rr)) with
              | error err => rw [es] at h; cases h
              | ok s =>
                rw [es] at h
                cases s with
                | NULL => cases h
                | node sk sv sh sl sr =>
                  simp only [] at h ⊢
                  cases e : delete f (node k v0 h0 (node lk lv lh ll lr) (node rk rv rh rl rr)) sk with
                  | error err => rw [e] at h; cases h
                  | ok p => rw [delete_fuel_succ f _ sk p e]; rw [e] at h; exact h

theorem delete_fuel_mono {f f2 : Nat} {t : AVL_Node V} {k : Int} {res : AVL_Node V × AVL_Node V}
    (h : delete f t k = .ok res) (hle : f ≤ f2) : delete f2 t k = .ok res := by
  induction hle with
  | refl => exact h
  | step _ ih => exact delete_fuel_succ _ _ _ _ ih

theorem heightOK_real : ∀ t : AVL_Node V, HeightOK t → height t = realHeight t ∧ HeightTrue t
  | NULL, _ => ⟨rfl, trivial⟩
  | node k v h l r, ⟨hl, hr, hh⟩ => by
      obtain ⟨e1, t1⟩ := heightOK_real l hl
      obtain ⟨e2, t2⟩ := heightOK_real r hr
      rw [e1, e2] at hh
      exact ⟨by rw [height_node, realHeight, hh], t1, t2, hh⟩

theorem BST_of_split {t t1 : AVL_Node V} {k : Int} {v : V} {xs ys : List (Int × V)}
    (hb : BST t) (e1 : inorder t = xs ++ ys) (e2 : inorder t1 = xs ++ (k, v) :: ys)
    (f1 : ∀ p ∈ xs, p.1 < k) (f2 : ∀ p ∈ ys, k < p.1) : BST t1 := by
  rw [BST_iff_sorted, keys_eq_map] at *
  rw [e1] at hb
  rw [e2]
  simp only [List.map_append, List.map_cons, List.pairwise_append, List.pairwise_cons,
    List.mem_map, List.mem_cons] at hb ⊢
  obtain ⟨a, b, c⟩ := hb
  refine ⟨a, ⟨?_, b⟩, ?_⟩
  · rintro x ⟨p, hp, rfl⟩; exact f2 p hp
  · rintro x ⟨p, hp, rfl⟩ y (rfl | ⟨q, hq, rfl⟩)
    · exact f1 p hp
    · exact c _ ⟨p, hp, rfl⟩ _ ⟨q, hq, rfl⟩

theorem reachable_inv {t : AVL_Node V} (hr : Reachable t) : BST t ∧ HeightOK t := by
  induction hr with
  | empty => exact ⟨trivial, trivial⟩
  | @insert t t1 k v _ e ih =>
      obtain ⟨hb, hh⟩ := ih
      obtain ⟨t2, e2, hh2, -, hs⟩ := insert_spec k v t hh
      rw [e] at e2
      cases e2
      refine ⟨?_, hh2⟩
      obtain ⟨p1, p2⟩ := hs hb
      by_cases hk : k ∈ keys t
      · exact BST_of_inorder_eq (p1 hk).1 hb
      · obtain ⟨xs, ys, e1, e2, f1, f2⟩ := p2 hk
        exact BST_of_split hb e1 e2 f1 f2
  | @delete t t1 sf fuel k _ e ih =>
      obtain ⟨hb, hh⟩ := ih
      obtain ⟨ret, sf2, e2, hh2, hb2, -, -⟩ :=
        delete_spec t k (max fuel (2 * size t + 1)) hb hh (le_max_right _ _)
      rw [delete_fuel_mono e (le_max_left _ _)] at e2
      cases e2
      exact ⟨hb2, hh2⟩

theorem delete_absent (k : Int) : ∀ (t : AVL_Node V) (fuel : Nat),
    Balanced t → HeightOK t → k ∉ keys t → size t < fuel → delete fuel t k = .ok (t, t)
  | NULL, fuel, _, _, _, hf => by
      obtain ⟨f, rfl⟩ : ∃ f, fuel = f + 1 := ⟨fuel - 1, by omega⟩
      rfl
  | node k0 v0 h0 l r, fuel, hbal, hh, hk, hf => by
      obtain ⟨f, rfl⟩ : ∃ f, fuel = f + 1 := ⟨fuel - 1, by omega⟩
      have et : node k0 v0 h0 l r = mk k0 v0 l r := heightOK_node_eq_mk hh
      obtain ⟨hl, hr, -⟩ := hh
      obtain ⟨bl, br, hb⟩ := hbal
      rw [size_node] at hf
      simp only [keys_node, List.mem_append, List.mem_cons, not_or] at hk
      obtain ⟨k1, k2, k3⟩ := hk
      obtain ⟨hd, sf, e, -, -, -, -, same, -⟩ := insert_rebalance_spec k0 v0 l r hl hr
      obtain ⟨rfl, rfl⟩ := same hb
      by_cases c1 : k < k0
      · simp only [delete, c1, if_true, delete_absent k l f bl hl k1 (by omega),
          delete_rebalance_eq k0 v0 h0 l r hl hr, e]
        rw [et]
      · have c2 : k > k0 := by omega
        simp only [delete, c1, c2, if_true, if_false, delete_absent k r f br hr k3 (by omega),
          delete_rebalance_eq k0 v0 h0 l r hl hr, e]
        rw [et]

/-! ## Further lemmas: printing, termination of `delete`, ascending insertion -/

theorem print_keys (t : AVL_Node V) : ∀ offset : Int,
    (print_tree_inorder_ t offset).map Line.key = (keys t).reverse := by
  induction t with
  | NULL => intro _; rfl
  | node k v h l r ihl ihr =>
      intro offset
      simp [print_tree_inorder_, keys, ihl, ihr]

theorem print_length (t : AVL_Node V) : ∀ offset : Int,
    (print_tree_inorder_ t offset).length = size t := by
  induction t with
  | NULL => intro _; rfl
  | node k v h l r ihl ihr =>
      intro offset
      simp only [print_tree_inorder_, size, List.length_append, List.length_cons, ihl, ihr]
      omega

theorem update_height_node (k : Int) (v : V) (h : Int) (l r : AVL_Node V) :
    ∃ h1, update_height (node k v h l r) = .ok (node k v h1 l r) := by
  cases l <;> cases r <;> simp only [update_height]
  · exact ⟨_, rfl⟩
  · exact ⟨_, rfl⟩
  · exact ⟨_, rfl⟩
  · split_ifs <;> exact ⟨_, rfl⟩

theorem right_rotation_node (k : Int) (v : V) (h : Int) (lk : Int) (lv : V) (lh : Int)
    (ll lr r : AVL_Node V) :
    ∃ h1 h2, right_rotation (node k v h (node lk lv lh ll lr) r)
      = .ok (node lk lv h2 ll (node k v h1 lr r), node k v h1 lr r) := by
  obtain ⟨h1, e1⟩ := update_height_node k v h lr r
  obtain ⟨h2, e2⟩ := update_height_node lk lv lh ll (node k v h1 lr r)
  exact ⟨h1, h2, by simp only [right_rotation, e1, e2]⟩

theorem left_rotation_node (k : Int) (v : V) (h : Int) (rk : Int) (rv : V) (rh : Int)
    (l rl rr : AVL_Node V) :
    ∃ h1 h2, left_rotation (node k v h l (node rk rv rh rl rr))
      = .ok (node rk rv h2 (node k v h1 l rl) rr, node k v h1 l rl) := by
  obtain ⟨h1, e1⟩ := update_height_node k v h l rl
  obtain ⟨h2, e2⟩ := update_height_node rk rv rh (node k v h1 l rl) rr
  exact ⟨h1, h2, by simp only [left_rotation, e1, e2]⟩

theorem right_left_rotation_node (k : Int) (v : V) (h : Int) (rk : Int) (rv : V) (rh : Int)
    (mk_ : Int) (mv : V) (mh : Int) (l ml mr rr : AVL_Node V) :
    ∃ h1 h2 h3, right_left_rotation (node k v h l (node rk rv rh (node mk_ mv mh ml mr) rr))
      = .ok (node mk_ mv h3 (node k v h1 l ml) (node rk rv h2 mr rr), node k v h1 l ml) := by
  obtain ⟨a1, a2, e1⟩ := right_rotation_node rk rv rh mk_ mv mh ml mr rr
  obtain ⟨b1, b2, e2⟩ := left_rotation_node k v h mk_ mv a2 l ml (node rk rv a1 mr rr)
  exact ⟨b1, a1, b2, by simp only [right_left_rotation, e1, e2]⟩

theorem left_right_rotation_node (k : Int) (v : V) (h : Int) (lk : Int) (lv : V) (lh : Int)
    (mk_ : Int) (mv : V) (mh : Int) (ll ml mr r : AVL_Node V) :
    ∃ h1 h2 h3, left_right_rotation (node k v h (node lk lv lh ll (node mk_ mv mh ml mr)) r)
      = .ok (node mk_ mv h3 (node lk lv h2 ll ml) (node k v h1 mr r), node k v h1 mr r) := by
  obtain ⟨a1, a2, e1⟩ := left_rotation_node lk lv lh mk_ mv mh ll ml mr
  obtain ⟨b1, b2, e2⟩ := right_rotation_node k v h mk_ mv a2 (node lk lv a1 ll ml) mr r
  exact ⟨b1, a1, b2, by simp only [left_right_rotation, e1, e2]⟩

theorem right_rotation_fuel (n : AVL_Node V) : right_rotation n ≠ .error Err.outOfFuel := by
  cases n with
  | NULL => simp [right_rotation]
  | node k v h l r =>
    cases l with
    | NULL => simp [right_rotation]
    | node lk lv lh ll lr =>
      obtain ⟨h1, h2, e⟩ := right_rotation_node k v h lk lv lh ll lr r
      simp [e]

theorem left_rotation_fuel (n : AVL_Node V) : left_rotation n ≠ .error Err.outOfFuel := by
  cases n with
  | NULL => simp [left_rotation]
  | node k v h l r =>
    cases r with
    | NULL => simp [left_rotation]
    | node rk rv rh rl rr =>
      obtain ⟨h1, h2, e⟩ := left_rotation_node k v h rk rv rh l rl rr
      simp [e]

theorem right_left_rotation_fuel (n : AVL_Node V) :
    right_left_rotation n ≠ .error Err.outOfFuel := by
  cases n with
  | NULL => simp [right_left_rotation]
  | node k v h l r =>
    simp only [right_left_rotation]
    cases e : right_rotation r with
    | error err =>
      intro hc
      simp only [Except.error.injEq] at hc
      exact right_rotation_fuel r (by rw [e, hc])
    | ok p => exact left_rotation_fuel _

theorem left_right_rotation_fuel (n : AVL_Node V) :
    left_right_rotation n ≠ .error Err.outOfFuel := by
  cases n with
  | NULL => simp [left_right_rotation]
  | node k v h l r =>
    simp only [left_right_rotation]
    cases e : left_rotation l with
    | error err =>
      intro hc
      simp only [Except.error.injEq] at hc
      exact left_rotation_fuel l (by rw [e, hc])
    | ok p => exact right_rotation_fuel _

theorem delete_rebalance_fuel (k : Int) (v : V) (h : Int) (l r : AVL_Node V) :
    delete_rebalance (node k v h l r) ≠ .error Err.outOfFuel := by
  obtain ⟨h1, e⟩ := update_height_node k v h l r
  simp only [delete_rebalance, e, balance_factor_node]
  by_cases c1 : height l - height r < -1
  · have c2 : ¬ height l - height r > 1 := by omega
    simp only [c1, c2, if_true, if_false]
    by_cases c3 : balance_factor r > 0
    · simp only [c3, if_true]
      cases e2 : right_left_rotation (node k v h1 l r) with
      | error err =>
        intro hc
        simp only [Except.error.injEq] at hc
        exact right_left_rotation_fuel _ (by rw [e2, hc])
      | ok p => simp
    · simp only [c3, if_false]
      cases e2 : left_rotation (node k v h1 l r) with
      | error err =>
        intro hc
        simp only [Except.error.injEq] at hc
        exact left_rotation_fuel _ (by rw [e2, hc])
      | ok p => simp
  · simp only [c1, if_false]
    by_cases c2 : height l - height r > 1
    · simp only [c2, if_true]
      by_cases c3 : balance_factor l < 0
      · simp only [c3, if_true]; exact left_right_rotation_fuel _
      · simp only [c3, if_false]; exact right_rotation_fuel _
    · simp [c2]

theorem keys_eq_nil : ∀ t : AVL_Node V, keys t = [] → t = NULL
  | NULL, _ => rfl
  | node k v h l r, e => by simp [keys] at e

theorem delete_min_fuel (sk : Int) : ∀ (r : AVL_Node V) (fuel : Nat),
    BST r → (∀ x ∈ keys r, sk ≤ x) → size r < fuel → delete fuel r sk ≠ .error Err.outOfFuel
  | NULL, fuel, _, _, hf => by
      obtain ⟨f, rfl⟩ : ∃ f, fuel = f + 1 := ⟨fuel - 1, by omega⟩
      simp [delete]
  | node rk rv rh rl rr, fuel, hb, hmin, hf => by
      obtain ⟨f, rfl⟩ : ∃ f, fuel = f + 1 := ⟨fuel - 1, by omega⟩
      obtain ⟨sl, sr, kl, kr⟩ := hb
      rw [size_node] at hf
      have hrk : sk ≤ rk := hmin rk (by rw [keys_node]; simp)
      by_cases c1 : sk < rk
      · rw [delete_node_lt _ _ _ _ _ _ _ c1]
        have ih := delete_min_fuel sk rl f sl
          (fun x hx => hmin x (by rw [keys_node]; simp [hx])) (by omega)
        cases e : delete f rl sk with
        | error err =>
          intro hc
          simp only [Except.error.injEq] at hc
          exact ih (by rw [e, hc])
        | ok p =>
          obtain ⟨a, b⟩ := p
          exact delete_rebalance_fuel _ _ _ _ _
      · have c2 : sk = rk := by omega
        subst c2
        have hnil : rl = NULL := by
          apply keys_eq_nil
          rw [List.eq_nil_iff_forall_not_mem]
          intro x hx
          have h1 := kl x hx
          have h2 := hmin x (by rw [keys_node]; simp [hx])
          omega
        subst hnil
        cases rr <;> simp [delete]

theorem delete_fuel_enough : ∀ (t : AVL_Node V) (k : Int) (fuel : Nat),
    BST t → size t + 2 ≤ fuel → delete fuel t k ≠ .error Err.outOfFuel
  | NULL, k, fuel, _, hf => by
      obtain ⟨f, rfl⟩ : ∃ f, fuel = f + 1 := ⟨fuel - 1, by omega⟩
      simp [delete]
  | node k0 v0 h0 l r, k, fuel, hb, hf => by
      obtain ⟨f, rfl⟩ : ∃ f, fuel = f + 1 := ⟨fuel - 1, by omega⟩
      have hb0 := hb
      obtain ⟨sl, sr, kl, kr⟩ := hb
      rw [size_node] at hf
      by_cases c1 : k < k0
      · rw [delete_node_lt _ _ _ _ _ _ _ c1]
        have ih := delete_fuel_enough l k f sl (by omega)
        cases e : delete f l k with
        | error err =>
          intro hc
          simp only [Except.error.injEq] at hc
          exact ih (by rw [e, hc])
        | ok p =>
          obtain ⟨a, b⟩ := p
          exact delete_rebalance_fuel _ _ _ _ _
      · by_cases c2 : k > k0
        · rw [delete_node_gt _ _ _ _ _ _ _ c2]
          have ih := delete_fuel_enough r k f sr (by omega)
          cases e : delete f r k with
          | error err =>
            intro hc
            simp only [Except.error.injEq] at hc
            exact ih (by rw [e, hc])
          | ok p =>
            obtain ⟨a, b⟩ := p
            exact delete_rebalance_fuel _ _ _ _ _
        · have c3 : k = k0 := by omega
          subst c3
          cases l with
          | NULL => cases r <;> simp [delete]
          | node lk lv lh ll lr =>
            cases r with
            | NULL => simp [delete]
            | node rk rv rh rl rr =>
              obtain ⟨sk, sv, sh, sr0, rest, es, ei⟩ := successor_loop_spec rk rv rh rl rr
              have ekr : keys (node rk rv rh rl rr) = sk :: rest.map Prod.fst := by
                rw [keys_eq_map, ei]; rfl
              have skr : sk ∈ keys (node rk rv rh rl rr) := by rw [ekr]; simp
              have skmin : ∀ x ∈ keys (node rk rv rh rl rr), sk ≤ x := by
                have hs := (BST_iff_sorted _).1 sr
                rw [ekr] at hs ⊢
                intro x hx
                rcases List.mem_cons.1 hx with rfl | hx
                · exact le_rfl
                · exact le_of_lt ((List.pairwise_cons.1 hs).1 x hx)
              have ksk : sk > k := kr sk skr
              obtain ⟨f1, rfl⟩ : ∃ f1, f = f1 + 1 := ⟨f - 1, by omega⟩
              simp only [size_node] at hf
              have hmin := delete_min_fuel sk (node rk rv rh rl rr) f1 sr skmin
                (by simp only [size_node]; omega)
              rw [delete_node_two]
              simp only [successor, es]
              rw [delete_node_gt _ _ _ _ _ _ _ ksk]
              cases e : delete f1 (node rk rv rh rl rr) sk with
              | error err =>
                intro hc
                simp only [Except.error.injEq] at hc
                exact hmin (by rw [e, hc])
              | ok p =>
                obtain ⟨a, b⟩ := p
                simp only []
                cases e2 : delete_rebalance (node k v0 h0 (node lk lv lh ll lr) a) with
                | error err =>
                  intro hc
                  simp only [Except.error.injEq] at hc
                  exact delete_rebalance_fuel _ _ _ _ _ (by rw [e2, hc])
                | ok q =>
                  obtain ⟨hd, sf⟩ := q
                  cases sf with
                  | NULL => simp
                  | node k1 v1 h1 l1 r1 => exact delete_rebalance_fuel _ _ _ _ _

theorem delete_fuel_stable : ∀ (f : Nat) (t : AVL_Node V) (k : Int),
    delete f t k ≠ .error Err.outOfFuel → delete (f + 1) t k = delete f t k
  | 0, _, _, h => absurd (by simp [delete]) h
  | f + 1, NULL, k, _ => by simp [delete]
  | f + 1, node k0 v0 h0 l r, k, h => by
      by_cases c1 : k < k0
      · rw [delete_node_lt _ _ _ _ _ _ _ c1] at h ⊢
        rw [delete_node_lt _ _ _ _ _ _ _ c1]
        have ih := delete_fuel_stable f l k (fun hc => h (by rw [hc]))
        rw [ih]
      · by_cases c2 : k > k0
        · rw [delete_node_gt _ _ _ _ _ _ _ c2] at h ⊢
          rw [delete_node_gt _ _ _ _ _ _ _ c2]
          have ih := delete_fuel_stable f r k (fun hc => h (by rw [hc]))
          rw [ih]
        · have c3 : k = k0 := by omega
          subst c3
          cases l with
          | NULL => cases r <;> simp [delete]
          | node lk lv lh ll lr =>
            cases r with
            | NULL => simp [delete]
            | node rk rv rh rl rr =>
              rw [delete_node_two] at h ⊢
              rw [delete_node_two]
              cases es : successor (node k v0 h0 (node lk lv lh ll lr) (node rk rv rh rl rr)) with
              | error err => rfl
              | ok s =>
                rw [es] at h
                cases s with
                | NULL => rfl
                | node sk sv sh sl sr =>
                  simp only [] at h ⊢
                  have ih := delete_fuel_stable f
                    (node k v0 h0 (node lk lv lh ll lr) (node rk rv rh rl rr)) sk
                    (fun hc => h (by rw [hc]))
                  rw [ih]

theorem delete_fuel_stable_le {f f2 : Nat} {t : AVL_Node V} {k : Int}
    (h : delete f t k ≠ .error Err.outOfFuel) (hle : f ≤ f2) : delete f2 t k = delete f t k := by
  induction hle with
  | refl => rfl
  | step _ ih => rw [delete_fuel_stable _ _ _ (by rw [ih]; exact h), ih]

theorem insert_rebalance_node_eq (k : Int) (v : V) (h : Int) (l r : AVL_Node V)
    (hl : HeightOK l) (hr : HeightOK r)
    (hb : height l - height r < -1 ∨ height l - height r > 1) :
    insert_rebalance (node k v h l r) = insert_rebalance (mk k v l r) := by
  have nl := height_nonneg l hl
  have nr := height_nonneg r hr
  have e : insert_rebalance (mk k v l r)
      = insert_rebalance (node k v (1 + max (height l) (height r)) l r) := rfl
  rw [e]
  by_cases c1 : height l - height r < -1
  · cases r with
    | NULL => simp only [height_NULL, height_node] at *; omega
    | node rk rv rh rl rr =>
      obtain ⟨hrl, hrr, hrh⟩ := hr
      have nrl := height_nonneg rl hrl
      have nrr := height_nonneg rr hrr
      simp only [height_NULL, height_node] at *
      by_cases c3 : height rl - height rr > 0
      · cases rl with
        | NULL => simp only [height_NULL, height_node] at *; omega
        | node mk_ mv mh ml mr =>
          obtain ⟨hml, hmr, hmh⟩ := hrl
          have nml := height_nonneg ml hml
          have nmr := height_nonneg mr hmr
          simp only [height_NULL, height_node] at *
          simp only [insert_rebalance, balance_factor_node, height_NULL, height_node, c1, c3,
            if_true, right_left_rotation, right_rotation_eq _ _ _ _ _ _ _ _ _ nml nmr nrr]
          rw [mk, left_rotation_eq _ _ _ _ _ _ _ _ _ nl nml (by rw [height_mk]; omega),
            left_rotation_eq _ _ _ _ _ _ _ _ _ nl nml (by rw [height_mk]; omega)]
      · simp only [insert_rebalance, balance_factor_node, height_NULL, height_node, c1, c3,
          if_true, if_false]
        rw [left_rotation_eq _ _ _ _ _ _ _ _ _ nl nrl nrr,
          left_rotation_eq _ _ _ _ _ _ _ _ _ nl nrl nrr]
  · have c2 : height l - height r > 1 := by omega
    cases l with
    | NULL => simp only [height_NULL, height_node] at *; omega
    | node lk lv lh ll lr =>
      obtain ⟨hll, hlr, hlh⟩ := hl
      have nll := height_nonneg ll hll
      have nlr := height_nonneg lr hlr
      simp only [height_NULL, height_node] at *
      by_cases c3 : height ll - height lr < 0
      · cases lr with
        | NULL => simp only [height_NULL, height_node] at *; omega
        | node mk_ mv mh ml mr =>
          obtain ⟨hml, hmr, hmh⟩ := hlr
          have nml := height_nonneg ml hml
          have nmr := height_nonneg mr hmr
          simp only [height_NULL, height_node] at *
          simp only [insert_rebalance, balance_factor_node, height_NULL, height_node, c1, c2, c3,
            if_true, if_false, left_right_rotation, left_rotation_eq _ _ _ _ _ _ _ _ _ nll nml nmr]
          rw [mk, right_rotation_eq _ _ _ _ _ _ _ _ _ (by rw [height_mk]; omega) nmr nr,
            right_rotation_eq _ _ _ _ _ _ _ _ _ (by rw [height_mk]; omega) nmr nr]
      · simp only [insert_rebalance, balance_factor_node, height_NULL, height_node, c1, c2, c3,
          if_true, if_false]
        rw [right_rotation_eq _ _ _ _ _ _ _ _ _ nll nlr nr,
          right_rotation_eq _ _ _ _ _ _ _ _ _ nll nlr nr]

theorem perfect_NULL (p : Nat) : Perfect p (NULL : AVL_Node V) ↔ p = 0 := by
  cases p <;> simp [Perfect]

theorem perfect_node (p : Nat) (k : Int) (v : V) (h : Int) (l r : AVL_Node V) :
    Perfect p (node k v h l r) ↔ ∃ q, p = q + 1 ∧ h = (q : Int) + 1 ∧ Perfect q l ∧ Perfect q r := by
  cases p with
  | zero => simp [Perfect]
  | succ n => simp [Perfect]

theorem perfect_height : ∀ (t : AVL_Node V) (p : Nat), Perfect p t → height t = p
  | NULL, p, h => by rw [(perfect_NULL p).1 h]; rfl
  | node k v h l r, p, hp => by
      obtain ⟨q, rfl, hh, -, -⟩ := (perfect_node p k v h l r).1 hp
      rw [height_node, hh]; push_cast; ring

theorem perfect_spine : ∀ (t : AVL_Node V) (p : Nat), Perfect p t → Spine t
  | NULL, _, _ => trivial
  | node k v h l r, p, hp => by
      obtain ⟨q, rfl, hh, pl, pr⟩ := (perfect_node p k v h l r).1 hp
      have e1 := perfect_height l q pl
      have e2 := perfect_height r q pr
      refine ⟨?_, ⟨q, pl⟩, perfect_spine r q pr, ?_, ?_⟩ <;> omega

theorem perfect_size : ∀ (t : AVL_Node V) (p : Nat), Perfect p t → size t + 1 = 2 ^ p
  | NULL, p, h => by rw [(perfect_NULL p).1 h]; rfl
  | node k v h l r, p, hp => by
      obtain ⟨q, rfl, hh, pl, pr⟩ := (perfect_node p k v h l r).1 hp
      have e1 := perfect_size l q pl
      have e2 := perfect_size r q pr
      rw [size_node, pow_succ]
      omega

theorem spine_heightOK : ∀ t : AVL_Node V, Spine t → HeightOK t
  | NULL, _ => trivial
  | node _ _ _ l r, ⟨hh, ⟨p, pl⟩, sr, _, _⟩ =>
      ⟨spine_heightOK l (perfect_spine l p pl), spine_heightOK r sr, hh⟩

theorem size_le_pow : ∀ (t : AVL_Node V) (n : Nat), HeightOK t → height t ≤ n → size t + 1 ≤ 2 ^ n
  | NULL, n, _, _ => by
      have := Nat.one_le_two_pow (n := n)
      simpa [size] using this
  | node k v h l r, n, ⟨hl, hr, hh⟩, hn => by
      have nl := height_nonneg l hl
      have nr := height_nonneg r hr
      rw [height_node] at hn
      obtain ⟨m, rfl⟩ : ∃ m, n = m + 1 := ⟨n - 1, by omega⟩
      have e1 := size_le_pow l m hl (by omega)
      have e2 := size_le_pow r m hr (by omega)
      rw [size_node, pow_succ]
      omega

theorem spine_size_perfect : ∀ (t : AVL_Node V) (h : Nat),
    Spine t → size t + 1 = 2 ^ h → Perfect h t
  | NULL, h, _, e => by
      rw [perfect_NULL]
      cases h with
      | zero => rfl
      | succ n =>
        have := Nat.one_le_two_pow (n := n)
        rw [pow_succ] at e
        simp only [size] at e
        omega
  | node k v h0 l r, h, ⟨hh, ⟨p, pl⟩, sr, h1, h2⟩, e => by
      have el := perfect_height l p pl
      have sl := perfect_size l p pl
      have hr := spine_heightOK r sr
      have sz := size_le_pow r (p + 1) hr (by push_cast; omega)
      rw [size_node] at e
      rw [pow_succ] at sz
      have hp : h = p + 1 := by
        rcases Nat.lt_trichotomy h (p + 1) with c | c | c
        · have : 2 ^ h ≤ 2 ^ p := Nat.pow_le_pow_right (by norm_num) (by omega)
          omega
        · exact c
        · have : 2 ^ (p + 2) ≤ 2 ^ h := Nat.pow_le_pow_right (by norm_num) (by omega)
          rw [pow_succ, pow_succ] at this
          omega
      subst hp
      rw [pow_succ] at e
      have pr : Perfect p r := spine_size_perfect r p sr (by omega)
      have er := perfect_height r p pr
      rw [perfect_node]
      exact ⟨p, rfl, by omega, pl, pr⟩

theorem insert_max_spine (k : Int) (v : V) : ∀ t : AVL_Node V, Spine t → (∀ x ∈ keys t, x < k) →
    ∃ t1, insert t k v = .ok t1 ∧ Spine t1 ∧ keys t1 = keys t ++ [k] ∧
      (∀ p, Perfect p t → height t1 = p + 1 ∧ (0 < p → balance_factor t1 = -1)) ∧
      ((∀ p, ¬ Perfect p t) → height t1 = height t)
  | NULL, _, _ => by
      refine ⟨create_node k v, rfl, ?_, rfl, ?_, ?_⟩
      · exact ⟨by simp [height_NULL], ⟨0, trivial⟩, trivial, le_rfl, by simp [height_NULL]⟩
      · intro p hp
        rw [perfect_NULL] at hp
        subst hp
        exact ⟨rfl, fun h => absurd h (lt_irrefl 0)⟩
      · intro hn
        exact absurd trivial (hn 0)
  | node k0 v0 h0 l r, hs, hk => by
      obtain ⟨hh, ⟨P, pl⟩, sr, h1, h2⟩ := hs
      have el := perfect_height l P pl
      have hl := spine_heightOK l (perfect_spine l P pl)
      have c : k0 < k := hk k0 (by rw [keys_node]; simp)
      obtain ⟨r1, er, sr1, kr1, g1, g2⟩ := insert_max_spine k v r sr
        (fun x hx => hk x (by rw [keys_node]; simp [hx]))
      have hr1 := spine_heightOK r1 sr1
      have nl := height_nonneg l hl
      have nr1 := height_nonneg r1 hr1
      obtain ⟨hd, sf, e, -, -, -, -, same, -⟩ := insert_rebalance_spec k0 v0 l r1 hl hr1
      have eins : ∀ a b, insert_rebalance (mk k0 v0 l r1) = .ok (a, b) →
          insert (node k0 v0 h0 l r) k v = .ok a := by
        intro a b eab
        have c0 : ¬ k0 = k := by omega
        have c1 : ¬ k < k0 := by omega
        rw [insert]
        simp only [c0, c1, c, gt_iff_lt, if_true, if_false, er,
          update_height_eq k0 v0 h0 l r1 nl nr1, eab]
      have noperf : height l ≠ height r → ∀ p, ¬ Perfect p (node k0 v0 h0 l r) := by
        intro hne p hp
        obtain ⟨q, -, -, ql, qr⟩ := (perfect_node p k0 v0 h0 l r).1 hp
        exact hne (by rw [perfect_height l q ql, perfect_height r q qr])
      by_cases hpr : ∃ p, Perfect p r
      · obtain ⟨p, pr⟩ := hpr
        have er0 := perfect_height r p pr
        obtain ⟨hg, hbf⟩ := g1 p pr
        by_cases hpP : p = P
        · -- the tree is perfect: the right subtree grows, no rotation
          subst hpP
          obtain ⟨rfl, rfl⟩ := same (by rw [abs_le]; omega)
          refine ⟨mk k0 v0 l r1, eins _ _ e, ?_, ?_, ?_, ?_⟩
          · exact ⟨rfl, ⟨p, pl⟩, sr1, by omega, by omega⟩
          · rw [keys_mk, kr1, keys_node]; simp
          · intro p2 hp2
            have := perfect_height _ p2 hp2
            rw [height_node] at this
            rw [height_mk, mk, balance_factor_node]
            exact ⟨by omega, fun _ => by omega⟩
          · intro hn
            exact absurd ((perfect_node (p + 1) k0 v0 h0 l r).2 ⟨p, rfl, by omega, pl, pr⟩)
              (hn (p + 1))
        · -- the right subtree was perfect and one higher: left rotation
          have hp1 : p = P + 1 := by omega
          subst hp1
          have hb := hbf (by omega)
          cases r1 with
          | NULL => simp only [height_NULL] at hg; omega
          | node kx vx hx lr rr =>
            obtain ⟨hhx, ⟨P2, plr⟩, srr, h3, h4⟩ := sr1
            have elr := perfect_height lr P2 plr
            have hlr := spine_heightOK lr (perfect_spine lr P2 plr)
            have hrr := spine_heightOK rr srr
            have nrr := height_nonneg rr hrr
            rw [balance_factor_node] at hb
            rw [height_node] at hg
            have hP2 : P2 = P := by omega
            subst hP2
            have c1 : height l - hx < -1 := by omega
            have c3 : ¬ height lr - height rr > 0 := by omega
            have erot : insert_rebalance (mk k0 v0 l (node kx vx hx lr rr)) =
                .ok (mk kx vx (mk k0 v0 l lr) rr, mk k0 v0 l lr) := by
              rw [mk]
              simp only [insert_rebalance, balance_factor_node, height_node, c1, c3, if_true,
                if_false]
              rw [left_rotation_eq _ _ _ _ _ _ _ _ _ nl (by omega) nrr]
            refine ⟨mk kx vx (mk k0 v0 l lr) rr, eins _ _ erot, ?_, ?_, ?_, ?_⟩
            · refine ⟨rfl, ⟨P2 + 1, ?_⟩, srr, ?_, ?_⟩
              · exact (perfect_node _ _ _ _ _ _).2 ⟨P2, rfl, by omega, pl, plr⟩
              · rw [height_mk]; omega
              · rw [height_mk]; omega
            · rw [keys_mk, keys_mk, keys_node]
              rw [keys_node] at kr1
              simp only [List.append_assoc, List.cons_append, ← kr1]
            · intro p2 hp2
              exact absurd hp2 (noperf (by omega) p2)
            · intro _
              rw [height_mk, height_mk, height_node]
              omega
      · -- the right subtree is not perfect: its height stays, no rotation
        have hnp : ∀ p, ¬ Perfect p r := fun p hp => hpr ⟨p, hp⟩
        have hg := g2 hnp
        obtain ⟨rfl, rfl⟩ := same (by rw [abs_le]; omega)
        refine ⟨mk k0 v0 l r1, eins _ _ e, ?_, ?_, ?_, ?_⟩
        · exact ⟨rfl, ⟨P, pl⟩, sr1, by omega, by omega⟩
        · rw [keys_mk, kr1, keys_node]; simp
        · intro p2 hp2
          obtain ⟨q, -, -, -, qr⟩ := (perfect_node p2 k0 v0 h0 l r).1 hp2
          exact absurd qr (hnp q)
        · intro _
          rw [height_mk, height_node]
          omega

theorem insert_all_ascending : ∀ (l : List (Int × V)) (t : AVL_Node V), Spine t →
    (keys t ++ l.map Prod.fst).Pairwise (· < ·) →
    ∃ t1, insert_all l t = .ok t1 ∧ Spine t1 ∧ keys t1 = keys t ++ l.map Prod.fst
  | [], t, hs, _ => ⟨t, rfl, hs, by simp⟩
  | (k, v) :: rest, t, hs, hp => by
      have hk : ∀ x ∈ keys t, x < k := by
        intro x hx
        rw [List.map_cons, List.pairwise_append] at hp
        exact hp.2.2 x hx k (by simp)
      obtain ⟨t1, e1, s1, k1, -⟩ := insert_max_spine k v t hs hk
      obtain ⟨t2, e2, s2, k2⟩ := insert_all_ascending rest t1 s1
        (by rw [k1]; simpa using hp)
      refine ⟨t2, ?_, s2, ?_⟩
      · simp only [insert_all, e1, e2]
      · rw [k2, k1]; simp

theorem ascending_keys (vals : Nat → V) (n : Nat) :
    ((ascending vals n).map Prod.fst).Pairwise (· < ·) ∧ (ascending vals n).length = n := by
  constructor
  · simp only [ascending, List.map_map]
    refine List.Pairwise.map _ ?_ (List.pairwise_lt_range n)
    intro a b hab
    simp only [Function.comp_apply]
    omega
  · simp [ascending]

theorem insert_one_to_seven :
    insert_all (ascending (fun i => i) 7) NULL =
      .ok (node 4 3 3
        (node 2 1 2 (node 1 0 1 NULL NULL) (node 3 2 1 NULL NULL))
        (node 6 5 2 (node 5 4 1 NULL NULL) (node 7 6 1 NULL NULL))) :=
  rfl

/-! ## Main results -/

/-- C1: on a tree satisfying the BST invariant, `search` returns a node whose key is `k`
(a node of the tree, with the value stored under `k`) when `k` occurs in the tree, and
`NULL` when `k` does not occur. -/
theorem search_correct (t : AVL_Node V) (k : Int) (hb : BST t) :
    (k ∈ keys t → ∃ v h l r, search t k = node k v h l r ∧ (k, v) ∈ inorder t) ∧
    (k ∉ keys t → search t k = NULL) := by
  refine ⟨fun hk => ?_, search_of_not_mem k t⟩
  rw [keys_eq_map, List.mem_map] at hk
  obtain ⟨⟨k1, v⟩, hp, rfl⟩ := hk
  obtain ⟨h, l, r, e⟩ := search_of_mem k1 v t hb hp
  exact ⟨v, h, l, r, e, hp⟩

theorem search_correct_witness :
    BST ex_scenario ∧
    ((25 ∈ keys ex_scenario →
        ∃ v h l r, search ex_scenario 25 = node 25 v h l r ∧ ((25 : Int), v) ∈ inorder ex_scenario) ∧
     (25 ∉ keys ex_scenario → search ex_scenario 25 = NULL)) :=
  ⟨by decide, search_correct ex_scenario 25 (by decide)⟩

/-- C2 (the code departs from it): `insert` with a key that is already at the node returns
the node as it is, so the following `search` finds the old value `v0`, not the new value `v`. -/
theorem insert_present_keeps_old_value (k : Int) (v0 v : V) (h : Int) (l r : AVL_Node V) :
    ∃ t1, insert (node k v0 h l r) k v = .ok t1 ∧ t1 = node k v0 h l r
      ∧ search t1 k = node k v0 h l r := by
  refine ⟨node k v0 h l r, ?_, rfl, ?_⟩
  · rw [insert]; simp
  · rw [search]; simp

/-- C3 (the code departs from it): on the tree built by inserting 3, 2, 4, 1, which satisfies
the three invariants and contains 3, `delete` of key 3 returns the single leaf 4: the keys 1
and 2 are lost together with 3. -/
theorem delete_two_children_loses_keys :
    insert_all [(3, 30), (2, 20), (4, 40), (1, 10)] NULL = .ok ex_left_heavy ∧
    BST ex_left_heavy ∧ Balanced ex_left_heavy ∧ HeightOK ex_left_heavy ∧
    keys ex_left_heavy = [1, 2, 3, 4] ∧
    delete 9 ex_left_heavy 3 = .ok (node 4 30 1 NULL NULL, node 4 30 1 NULL NULL) ∧
    keys (node 4 30 1 NULL NULL : AVL_Node Nat) = [4] :=
  ⟨rfl, by decide, by decide, by decide, by decide, rfl, by decide⟩

/-- C4: on a tree satisfying the BST and height invariants (the balance invariant and the
presence of `k` are not needed), `delete` returns with enough fuel and `search` for `k` in
the returned tree gives `NULL`. -/
theorem search_after_delete (t : AVL_Node V) (k : Int) (fuel : Nat)
    (hb : BST t) (hh : HeightOK t) (hf : 2 * size t + 1 ≤ fuel) :
    ∃ ret sf, delete fuel t k = .ok (ret, sf) ∧ search ret k = NULL := by
  obtain ⟨ret, sf, e, -, -, hk, -⟩ := delete_spec t k fuel hb hh hf
  exact ⟨ret, sf, e, search_of_not_mem k ret (fun hm => (hk k hm).2 rfl)⟩

theorem search_after_delete_witness :
    BST ex_scenario ∧ HeightOK ex_scenario ∧ 2 * size ex_scenario + 1 ≤ 9 ∧
    ∃ ret sf, delete 9 ex_scenario 20 = .ok (ret, sf) ∧ search ret 20 = NULL :=
  ⟨by decide, by decide, by decide,
    search_after_delete ex_scenario 20 9 (by decide) (by decide) (by decide)⟩

/-- C5: every tree obtained from the empty tree by `insert` and `delete` calls has its keys
in strictly increasing in-order sequence, satisfies the BST invariant and has no key twice;
and every further `insert` or `delete` call on it returns. -/
theorem reachable_sorted (t : AVL_Node V) (hr : Reachable t) :
    List.Sorted (· < ·) (keys t) ∧ BST t ∧ (keys t).Nodup ∧
    (∀ k v, ∃ t1, insert t k v = .ok t1) ∧
    (∀ k, ∃ ret sf, delete (2 * size t + 1) t k = .ok (ret, sf)) := by
  obtain ⟨hb, hh⟩ := reachable_inv hr
  have hs : List.Pairwise (· < ·) (keys t) := (BST_iff_sorted t).1 hb
  refine ⟨hs, hb, hs.imp (fun h => ne_of_lt h), ?_, ?_⟩
  · intro k v
    obtain ⟨t1, e, -⟩ := insert_spec k v t hh
    exact ⟨t1, e⟩
  · intro k
    obtain ⟨ret, sf, e, -⟩ := delete_spec t k (2 * size t + 1) hb hh le_rfl
    exact ⟨ret, sf, e⟩

theorem reachable_sorted_witness :
    Reachable ex_scenario ∧
    (List.Sorted (· < ·) (keys ex_scenario) ∧ BST ex_scenario ∧ (keys ex_scenario).Nodup ∧
      (∀ k v, ∃ t1, insert ex_scenario k v = .ok t1) ∧
      (∀ k, ∃ ret sf, delete (2 * size ex_scenario + 1) ex_scenario k = .ok (ret, sf))) :=
  have hr : Reachable ex_scenario :=
    Reachable.insert 25 4 (Reachable.insert 30 3 (Reachable.insert 20 2
      (Reachable.insert 10 1 Reachable.empty rfl) rfl) rfl) rfl
  ⟨hr, reachable_sorted ex_scenario hr⟩

/-- C6: on a tree satisfying the balance and height invariants (the BST invariant is not
needed), `insert` returns a tree in which every node has
`|height(left) - height(right)| ≤ 1`, with all cached heights correct. -/
theorem insert_preserves_balance (t : AVL_Node V) (k : Int) (v : V)
    (hbal : Balanced t) (hh : HeightOK t) :
    ∃ t1, insert t k v = .ok t1 ∧ Balanced t1 ∧ HeightOK t1 := by
  obtain ⟨t1, e, hh1, hb1, -⟩ := insert_spec k v t hh
  exact ⟨t1, e, (hb1 hbal).1, hh1⟩

theorem insert_preserves_balance_witness :
    Balanced ex_scenario ∧ HeightOK ex_scenario ∧
    ∃ t1, insert ex_scenario 27 5 = .ok t1 ∧ Balanced t1 ∧ HeightOK t1 :=
  ⟨by decide, by decide, insert_preserves_balance ex_scenario 27 5 (by decide) (by decide)⟩

/-- C7 (the code departs from it): `ex_fourteen` is built by inserts and satisfies the three
invariants; `delete` of key 3, held by a left-heavy node with two children, returns a tree
that violates the balance invariant (the node with key 5 has subtrees of heights 1 and 3). -/
theorem delete_breaks_balance :
    insert_all ex_fourteen_keys NULL = .ok ex_fourteen ∧
    BST ex_fourteen ∧ Balanced ex_fourteen ∧ HeightOK ex_fourteen ∧
    (∃ sf, delete 29 ex_fourteen 3 = .ok (ex_fourteen_after, sf)) ∧
    HeightOK ex_fourteen_after ∧ ¬ Balanced ex_fourteen_after :=
  ⟨rfl, by decide, by decide, by decide, ⟨_, rfl⟩, by decide, by decide⟩

/-- C8: in every tree obtained from the empty tree by `insert` and `delete` calls, the cached
height of every node is 1 + max of the true heights of its subtrees (0 for an absent one);
in particular the cached height of the root is its true height. -/
theorem reachable_heights (t : AVL_Node V) (hr : Reachable t) :
    HeightTrue t ∧ height t = realHeight t := by
  obtain ⟨-, hh⟩ := reachable_inv hr
  exact ⟨(heightOK_real t hh).2, (heightOK_real t hh).1⟩

theorem reachable_heights_witness :
    Reachable ex_left_heavy ∧ (HeightTrue ex_left_heavy ∧ height ex_left_heavy = realHeight ex_left_heavy) :=
  have hr : Reachable ex_left_heavy :=
    Reachable.insert 1 10 (Reachable.insert 4 40 (Reachable.insert 2 20
      (Reachable.insert 3 30 Reachable.empty rfl) rfl) rfl) rfl
  ⟨hr, reachable_heights ex_left_heavy hr⟩

/-- C9: on a tree satisfying the BST and height invariants (the balance invariant is not
needed), `insert` of an absent key `k` returns a tree whose in-order sequence of pairs is that
of the old tree with `(k, v)` put between the pairs with smaller keys and the pairs with
greater keys; the tree has exactly one node more. -/
theorem insert_absent_inorder (t : AVL_Node V) (k : Int) (v : V)
    (hb : BST t) (hh : HeightOK t) (hk : k ∉ keys t) :
    ∃ t1 xs ys, insert t k v = .ok t1 ∧ inorder t = xs ++ ys ∧ inorder t1 = xs ++ (k, v) :: ys
      ∧ (∀ p ∈ xs, p.1 < k) ∧ (∀ p ∈ ys, k < p.1) ∧ size t1 = size t + 1 := by
  obtain ⟨t1, e, -, -, hs⟩ := insert_spec k v t hh
  obtain ⟨xs, ys, e1, e2, f1, f2⟩ := (hs hb).2 hk
  refine ⟨t1, xs, ys, e, e1, e2, f1, f2, ?_⟩
  rw [size_eq_length, size_eq_length, e1, e2]
  simp only [List.length_append, List.length_cons]
  omega

theorem insert_absent_inorder_witness :
    BST ex_scenario ∧ HeightOK ex_scenario ∧ (27 : Int) ∉ keys ex_scenario ∧
    ∃ t1 xs ys, insert ex_scenario 27 5 = .ok t1 ∧ inorder ex_scenario = xs ++ ys
      ∧ inorder t1 = xs ++ ((27 : Int), 5) :: ys
      ∧ (∀ p ∈ xs, p.1 < 27) ∧ (∀ p ∈ ys, 27 < p.1) ∧ size t1 = size ex_scenario + 1 :=
  ⟨by decide, by decide, by decide,
    insert_absent_inorder ex_scenario 27 5 (by decide) (by decide) (by decide)⟩

/-- C10: on a tree satisfying the balance and height invariants, `delete` of a key that does
not occur in it returns, with fuel above the node count, the very same tree (same shape, keys,
values and cached heights), and the node object it was called on is unchanged as well. -/
theorem delete_absent_unchanged (t : AVL_Node V) (k : Int) (fuel : Nat)
    (hbal : Balanced t) (hh : HeightOK t) (hk : k ∉ keys t) (hf : size t < fuel) :
    delete fuel t k = .ok (t, t) :=
  delete_absent k t fuel hbal hh hk hf

theorem delete_absent_unchanged_witness :
    Balanced ex_scenario ∧ HeightOK ex_scenario ∧ (27 : Int) ∉ keys ex_scenario ∧
    size ex_scenario < 5 ∧ delete 5 ex_scenario 27 = .ok (ex_scenario, ex_scenario) :=
  ⟨by decide, by decide, by decide, by decide,
    delete_absent_unchanged ex_scenario 27 5 (by decide) (by decide) (by decide) (by decide)⟩

/-- C11: on a tree satisfying the three invariants, `insert` of a key already present returns a
tree with the same shape, keys and cached heights (no rotation), the same number of nodes, and
exactly one node with key `k`. -/
theorem insert_present_structure (t : AVL_Node V) (k : Int) (v : V)
    (hb : BST t) (hbal : Balanced t) (hh : HeightOK t) (hk : k ∈ keys t) :
    ∃ t1, insert t k v = .ok t1 ∧ shape t1 = shape t ∧ keys t1 = keys t
      ∧ size t1 = size t ∧ (keys t1).count k = 1 := by
  obtain ⟨t1, e, -, -, hs⟩ := insert_spec k v t hh
  have := ((hs hb).1 hk).2 hbal
  subst this
  refine ⟨t1, e, rfl, rfl, rfl, ?_⟩
  have hs : (keys t1).Nodup := ((BST_iff_sorted t1).1 hb).imp (fun h => ne_of_lt h)
  exact List.count_eq_one_of_mem hs hk

theorem insert_present_structure_witness :
    BST ex_scenario ∧ Balanced ex_scenario ∧ HeightOK ex_scenario ∧ (25 : Int) ∈ keys ex_scenario ∧
    ∃ t1, insert ex_scenario 25 9 = .ok t1 ∧ shape t1 = shape ex_scenario
      ∧ keys t1 = keys ex_scenario ∧ size t1 = size ex_scenario ∧ (keys t1).count 25 = 1 :=
  ⟨by decide, by decide, by decide, by decide,
    insert_present_structure ex_scenario 25 9 (by decide) (by decide) (by decide) (by decide)⟩

/-- C12: for every `h`, inserting the keys 1, 2, ..., 2^h - 1 in increasing order into the
empty tree gives a perfect tree: the cached height of the root and its true height are
exactly `h`; for `h = 3` the keys 1..7 give height 3. -/
theorem insert_ascending_perfect (h : Nat) (vals : Nat → V) :
    ∃ t, insert_all (ascending vals (2 ^ h - 1)) NULL = .ok t ∧ height t = h ∧
      realHeight t = h ∧ Perfect h t ∧ size t = 2 ^ h - 1 ∧
      keys t = (List.range (2 ^ h - 1)).map (fun i : Nat => (i : Int) + 1) := by
  obtain ⟨hp, hlen⟩ := ascending_keys vals (2 ^ h - 1)
  obtain ⟨t, e, hs, hk⟩ := insert_all_ascending (ascending vals (2 ^ h - 1)) NULL trivial
    (by simpa [keys] using hp)
  have hsz : size t = 2 ^ h - 1 := by
    rw [size_eq_length, ← List.length_map (inorder t) Prod.fst, ← keys_eq_map, hk]
    simp [keys, hlen]
  have h1 : 1 ≤ 2 ^ h := Nat.one_le_two_pow
  have hperf : Perfect h t := spine_size_perfect t h hs (by omega)
  have hh := perfect_height t h hperf
  refine ⟨t, e, hh, ?_, hperf, hsz, ?_⟩
  · rw [← (heightOK_real t (spine_heightOK t hs)).1, hh]
  · rw [hk]; simp [keys, ascending]

/-- C13 as stated fails: on the tree with keys 1, 2, 3 the keys on the successive output lines
are 3, 2, 1, not the in-order sequence 1, 2, 3. -/
theorem print_not_inorder :
    (print_tree_inorder ex_three).map Line.key = [3, 2, 1] ∧ keys ex_three = [1, 2, 3] ∧
    ¬ (print_tree_inorder ex_three).map Line.key = keys ex_three := by
  decide

/-- C13, amended: `print_tree_inorder` writes exactly one line per node, and the keys on the
successive lines are the keys in reverse in-order: right subtree, then node, then left
subtree. -/
theorem print_reverse_inorder (t : AVL_Node V) :
    (print_tree_inorder t).length = size t ∧
    (print_tree_inorder t).map Line.key = (keys t).reverse :=
  ⟨print_length t 0, print_keys t 0⟩

/-- C14 (the code departs from it): deleting key 2, held by a node with the two children 1
and 3, leaves a node with the successor's key 3 but with the value 20 of the deleted key; the
value 30 that key 3 had before is lost. -/
theorem delete_two_children_keeps_old_value :
    BST ex_three ∧ Balanced ex_three ∧ HeightOK ex_three ∧
    (∃ h l r, search ex_three 3 = node 3 30 h l r) ∧
    (∃ ret sf, delete 7 ex_three 2 = .ok (ret, sf) ∧ ∃ h l r, search ret 3 = node 3 20 h l r) :=
  ⟨by decide, by decide, by decide, ⟨_, _, _, rfl⟩, ⟨_, _, rfl, ⟨_, _, _, rfl⟩⟩⟩

/-- C15: on a tree satisfying the BST invariant, `delete` never runs out of fuel `size t + 2`
(one re-entry into the same node is all the two-children case needs), and it returns a result
when the cached heights are correct; the successor of a node with a right child has no left
child, and its key is greater than the node's key and minimal in the right subtree. -/
theorem delete_terminates (t : AVL_Node V) (k : Int) (fuel : Nat)
    (hb : BST t) (hf : size t + 2 ≤ fuel) :
    delete fuel t k ≠ .error Err.outOfFuel ∧
    (HeightOK t → ∃ ret sf, delete fuel t k = .ok (ret, sf)) ∧
    (∀ k0 v0 h0 l rk rv rh rl rr, t = node k0 v0 h0 l (node rk rv rh rl rr) →
      ∃ sk sv sh sr, successor t = .ok (node sk sv sh NULL sr) ∧ k0 < sk ∧
        ∀ x ∈ keys (node rk rv rh rl rr), sk ≤ x) := by
  have h1 := delete_fuel_enough t k fuel hb hf
  refine ⟨h1, ?_, ?_⟩
  · intro hh
    obtain ⟨ret, sf, e, -⟩ :=
      delete_spec t k (max fuel (2 * size t + 1)) hb hh (le_max_right _ _)
    rw [delete_fuel_stable_le h1 (le_max_left _ _)] at e
    exact ⟨ret, sf, e⟩
  · rintro k0 v0 h0 l rk rv rh rl rr rfl
    obtain ⟨sl, sr, kl, kr⟩ := hb
    obtain ⟨sk, sv, sh, sr0, rest, es, ei⟩ := successor_loop_spec rk rv rh rl rr
    have ekr : keys (node rk rv rh rl rr) = sk :: rest.map Prod.fst := by
      rw [keys_eq_map, ei]; rfl
    refine ⟨sk, sv, sh, sr0, es, kr sk (by rw [ekr]; simp), ?_⟩
    have hs := (BST_iff_sorted _).1 sr
    rw [ekr] at hs ⊢
    intro x hx
    rcases List.mem_cons.1 hx with rfl | hx
    · exact le_rfl
    · exact le_of_lt ((List.pairwise_cons.1 hs).1 x hx)

theorem delete_terminates_witness :
    BST ex_scenario ∧ size ex_scenario + 2 ≤ 6 ∧
    (delete 6 ex_scenario 20 ≠ .error Err.outOfFuel ∧
     (HeightOK ex_scenario → ∃ ret sf, delete 6 ex_scenario 20 = .ok (ret, sf)) ∧
     (∀ k0 v0 h0 l rk rv rh rl rr, ex_scenario = node k0 v0 h0 l (node rk rv rh rl rr) →
       ∃ sk sv sh sr, successor ex_scenario = .ok (node sk sv sh NULL sr) ∧ k0 < sk ∧
         ∀ x ∈ keys (node rk rv rh rl rr), sk ≤ x)) :=
  ⟨by decide, by decide, delete_terminates ex_scenario 20 6 (by decide) (by decide)⟩

/-- C16: for a node whose two subtrees satisfy the balance and height invariants and whose
balance factor is +2 or -2, the rebalancing step of `insert` and of `delete` returns the result
of the rotation the decision table selects, and in the returned subtree every node has its
balance factor in [-1, 1] and a correct cached height. -/
theorem rebalance_restores (k : Int) (v : V) (h : Int) (l r : AVL_Node V)
    (bl : Balanced l) (hl : HeightOK l) (br : Balanced r) (hr : HeightOK r)
    (h2 : balance_factor (node k v h l r) = 2 ∨ balance_factor (node k v h l r) = -2) :
    ∃ hd sf, insert_rebalance (node k v h l r) = .ok (hd, sf) ∧
      delete_rebalance (node k v h l r) = .ok (hd, sf) ∧
      Balanced hd ∧ HeightOK hd ∧ inorder hd = inorder (node k v h l r) ∧
      (balance_factor (node k v h l r) < -1 → balance_factor r > 0 →
        right_left_rotation (node k v h l r) = .ok (hd, sf)) ∧
      (balance_factor (node k v h l r) < -1 → ¬ balance_factor r > 0 →
        left_rotation (node k v h l r) = .ok (hd, sf)) ∧
      (balance_factor (node k v h l r) > 1 → balance_factor l < 0 →
        left_right_rotation (node k v h l r) = .ok (hd, sf)) ∧
      (balance_factor (node k v h l r) > 1 → ¬ balance_factor l < 0 →
        right_rotation (node k v h l r) = .ok (hd, sf)) := by
  rw [balance_factor_node] at h2 ⊢
  obtain ⟨hd, sf, e, hhd, ihd, -, -, -, bal⟩ := insert_rebalance_spec k v l r hl hr
  have hb2 : |height l - height r| ≤ 2 := by rw [abs_le]; omega
  have e1 : insert_rebalance (node k v h l r) = .ok (hd, sf) := by
    rw [insert_rebalance_node_eq k v h l r hl hr (by omega), e]
  refine ⟨hd, sf, e1, by rw [delete_rebalance_eq k v h l r hl hr, e], (bal bl br hb2).1, hhd,
    by rw [ihd, inorder], ?_, ?_, ?_, ?_⟩
  · intro c1 c3
    simpa only [insert_rebalance, balance_factor_node, c1, c3, if_true] using e1
  · intro c1 c3
    simpa only [insert_rebalance, balance_factor_node, c1, c3, if_true, if_false] using e1
  · intro c2 c3
    have c1 : ¬ height l - height r < -1 := by omega
    simpa only [insert_rebalance, balance_factor_node, c1, c2, c3, if_true, if_false] using e1
  · intro c2 c3
    have c1 : ¬ height l - height r < -1 := by omega
    simpa only [insert_rebalance, balance_factor_node, c1, c2, c3, if_true, if_false] using e1

theorem rebalance_restores_witness :
    Balanced (NULL : AVL_Node Nat) ∧ HeightOK (NULL : AVL_Node Nat) ∧
    Balanced ex_chain ∧ HeightOK ex_chain ∧
    (balance_factor (node 10 1 3 NULL ex_chain) = 2 ∨
      balance_factor (node 10 1 3 NULL ex_chain) = -2) ∧
    ∃ hd sf, insert_rebalance (node 10 1 3 NULL ex_chain) = .ok (hd, sf) ∧
      delete_rebalance (node 10 1 3 NULL ex_chain) = .ok (hd, sf) ∧
      Balanced hd ∧ HeightOK hd ∧ inorder hd = inorder (node 10 1 3 NULL ex_chain) ∧
      (balance_factor (node 10 1 3 NULL ex_chain) < -1 → balance_factor ex_chain > 0 →
        right_left_rotation (node 10 1 3 NULL ex_chain) = .ok (hd, sf)) ∧
      (balance_factor (node 10 1 3 NULL ex_chain) < -1 → ¬ balance_factor ex_chain > 0 →
        left_rotation (node 10 1 3 NULL ex_chain) = .ok (hd, sf)) ∧
      (balance_factor (node 10 1 3 NULL ex_chain) > 1 →
        balance_factor (NULL : AVL_Node Nat) < 0 →
        left_right_rotation (node 10 1 3 NULL ex_chain) = .ok (hd, sf)) ∧
      (balance_factor (node 10 1 3 NULL ex_chain) > 1 →
        ¬ balance_factor (NULL : AVL_Node Nat) < 0 →
        right_rotation (node 10 1 3 NULL ex_chain) = .ok (hd, sf)) :=
  ⟨by decide, by decide, by decide, by decide, by decide,
    rebalance_restores 10 1 3 NULL ex_chain (by decide) (by decide) (by decide) (by decide)
      (by decide)⟩

/-- C17: each of the four rotations, applied to a node that has the children it needs,
returns a tree with the same in-order sequence of (key, value) pairs, and so keeps the BST
invariant. -/
theorem rotations_preserve_inorder :
    (∀ (k : Int) (v : V) (h lk : Int) (lv : V) (lh : Int) (ll lr r : AVL_Node V),
      ∃ hd sf, right_rotation (node k v h (node lk lv lh ll lr) r) = .ok (hd, sf) ∧
        inorder hd = inorder (node k v h (node lk lv lh ll lr) r) ∧
        (BST (node k v h (node lk lv lh ll lr) r) → BST hd)) ∧
    (∀ (k : Int) (v : V) (h rk : Int) (rv : V) (rh : Int) (l rl rr : AVL_Node V),
      ∃ hd sf, left_rotation (node k v h l (node rk rv rh rl rr)) = .ok (hd, sf) ∧
        inorder hd = inorder (node k v h l (node rk rv rh rl rr)) ∧
        (BST (node k v h l (node rk rv rh rl rr)) → BST hd)) ∧
    (∀ (k : Int) (v : V) (h lk : Int) (lv : V) (lh mk_ : Int) (mv : V) (mh : Int)
        (ll ml mr r : AVL_Node V),
      ∃ hd sf, left_right_rotation (node k v h (node lk lv lh ll (node mk_ mv mh ml mr)) r)
          = .ok (hd, sf) ∧
        inorder hd = inorder (node k v h (node lk lv lh ll (node mk_ mv mh ml mr)) r) ∧
        (BST (node k v h (node lk lv lh ll (node mk_ mv mh ml mr)) r) → BST hd)) ∧
    (∀ (k : Int) (v : V) (h rk : Int) (rv : V) (rh mk_ : Int) (mv : V) (mh : Int)
        (l ml mr rr : AVL_Node V),
      ∃ hd sf, right_left_rotation (node k v h l (node rk rv rh (node mk_ mv mh ml mr) rr))
          = .ok (hd, sf) ∧
        inorder hd = inorder (node k v h l (node rk rv rh (node mk_ mv mh ml mr) rr)) ∧
        (BST (node k v h l (node rk rv rh (node mk_ mv mh ml mr) rr)) → BST hd)) := by
  refine ⟨?_, ?_, ?_, ?_⟩
  · intro k v h lk lv lh ll lr r
    obtain ⟨h1, h2, e⟩ := right_rotation_node k v h lk lv lh ll lr r
    have hi : inorder (node lk lv h2 ll (node k v h1 lr r))
        = inorder (node k v h (node lk lv lh ll lr) r) := by simp [inorder]
    exact ⟨_, _, e, hi, BST_of_inorder_eq hi⟩
  · intro k v h rk rv rh l rl rr
    obtain ⟨h1, h2, e⟩ := left_rotation_node k v h rk rv rh l rl rr
    have hi : inorder (node rk rv h2 (node k v h1 l rl) rr)
        = inorder (node k v h l (node rk rv rh rl rr)) := by simp [inorder]
    exact ⟨_, _, e, hi, BST_of_inorder_eq hi⟩
  · intro k v h lk lv lh mk_ mv mh ll ml mr r
    obtain ⟨h1, h2, h3, e⟩ := left_right_rotation_node k v h lk lv lh mk_ mv mh ll ml mr r
    have hi : inorder (node mk_ mv h3 (node lk lv h2 ll ml) (node k v h1 mr r))
        = inorder (node k v h (node lk lv lh ll (node mk_ mv mh ml mr)) r) := by simp [inorder]
    exact ⟨_, _, e, hi, BST_of_inorder_eq hi⟩
  · intro k v h rk rv rh mk_ mv mh l ml mr rr
    obtain ⟨h1, h2, h3, e⟩ := right_left_rotation_node k v h rk rv rh mk_ mv mh l ml mr rr
    have hi : inorder (node mk_ mv h3 (node k v h1 l ml) (node rk rv h2 mr rr))
        = inorder (node k v h l (node rk rv rh (node mk_ mv mh ml mr) rr)) := by simp [inorder]
    exact ⟨_, _, e, hi, BST_of_inorder_eq hi⟩

/-- C18: when the subtrees involved have correct cached heights, `right_rotation` of a node
`n` with left child `l` returns `l` as the new root with `n` as its right child; the former
right subtree of `l` is the new left subtree of `n`; the left subtree of `l` and the right
subtree of `n` are unchanged; the cached height of `n` and then of `l` is 1 + max of the
heights of their children.  `left_rotation` is the mirror image. -/
theorem rotation_result (k : Int) (v : V) (h ck : Int) (cv : V) (ch : Int)
    (a b c : AVL_Node V) (ha : HeightOK a) (hb : HeightOK b) (hc : HeightOK c) :
    right_rotation (node k v h (node ck cv ch a b) c) =
      .ok (node ck cv (1 + max (height a) (1 + max (height b) (height c))) a
             (node k v (1 + max (height b) (height c)) b c),
           node k v (1 + max (height b) (height c)) b c) ∧
    left_rotation (node k v h a (node ck cv ch b c)) =
      .ok (node ck cv (1 + max (1 + max (height a) (height b)) (height c))
             (node k v (1 + max (height a) (height b)) a b) c,
           node k v (1 + max (height a) (height b)) a b) :=
  ⟨right_rotation_eq k v h ck cv ch a b c (height_nonneg a ha) (height_nonneg b hb)
      (height_nonneg c hc),
   left_rotation_eq k v h ck cv ch a b c (height_nonneg a ha) (height_nonneg b hb)
      (height_nonneg c hc)⟩

theorem rotation_result_witness :
    HeightOK (node 1 10 1 NULL NULL : AVL_Node Nat) ∧ HeightOK (NULL : AVL_Node Nat) ∧
    HeightOK (node 4 40 1 NULL NULL : AVL_Node Nat) ∧
    (right_rotation (node 3 30 3 (node 2 20 2 (node 1 10 1 NULL NULL) NULL) (node 4 40 1 NULL NULL))
      = .ok (node 2 20 3 (node 1 10 1 NULL NULL) (node 3 30 2 NULL (node 4 40 1 NULL NULL)),
             node 3 30 2 NULL (node 4 40 1 NULL NULL)) ∧
     left_rotation (node 3 30 3 (node 1 10 1 NULL NULL) (node 2 20 2 NULL (node 4 40 1 NULL NULL)))
      = .ok (node 2 20 3 (node 3 30 2 (node 1 10 1 NULL NULL) NULL) (node 4 40 1 NULL NULL),
             node 3 30 2 (node 1 10 1 NULL NULL) NULL)) :=
  ⟨by decide, by decide, by decide,
    rotation_result 3 30 3 2 20 2 (node 1 10 1 NULL NULL) NULL (node 4 40 1 NULL NULL)
      (by decide) (by decide) (by decide)⟩

/-- C19: for keys `a < b < c`, inserting `a`, then `b`, then `c` into the empty tree makes the
node `a` right-heavy by 2 with a right child that is not left-heavy, so a left rotation is
applied; the result has root `b` with the leaves `a` and `c` as children and cached heights
2, 1 and 1. -/
theorem insert_three_ascending (a b c : Int) (va vb vc : V) (hab : a < b) (hbc : b < c) :
    insert_all [(a, va), (b, vb)] NULL = .ok (node a va 2 NULL (node b vb 1 NULL NULL)) ∧
    balance_factor (node a va 3 NULL (node b vb 2 NULL (node c vc 1 NULL NULL))) = -2 ∧
    ¬ balance_factor (node b vb 2 NULL (node c vc 1 NULL NULL)) > 0 ∧
    left_rotation (node a va 3 NULL (node b vb 2 NULL (node c vc 1 NULL NULL))) =
      .ok (node b vb 2 (node a va 1 NULL NULL) (node c vc 1 NULL NULL), node a va 1 NULL NULL) ∧
    insert_all [(a, va), (b, vb), (c, vc)] NULL =
      .ok (node b vb 2 (node a va 1 NULL NULL) (node c vc 1 NULL NULL)) := by
  have n1 : ¬ a = b := by omega
  have n2 : ¬ b < a := by omega
  have n3 : ¬ a = c := by omega
  have n4 : ¬ c < a := by omega
  have n5 : ¬ b = c := by omega
  have n6 : ¬ c < b := by omega
  have hac : a < c := by omega
  have e2 : insert (create_node a va) b vb = .ok (node a va 2 NULL (node b vb 1 NULL NULL)) := by
    simp [insert, create_node, n1, n2, hab, update_height, insert_rebalance, balance_factor,
      height]
  have e3r : insert (node b vb 1 NULL NULL) c vc = .ok (node b vb 2 NULL (node c vc 1 NULL NULL)) := by
    simp [insert, create_node, n5, n6, hbc, update_height, insert_rebalance, balance_factor,
      height]
  have e4 : left_rotation (node a va 3 NULL (node b vb 2 NULL (node c vc 1 NULL NULL))) =
      .ok (node b vb 2 (node a va 1 NULL NULL) (node c vc 1 NULL NULL), node a va 1 NULL NULL) := by
    simp [left_rotation, update_height, height]
  have e3 : insert (node a va 2 NULL (node b vb 1 NULL NULL)) c vc =
      .ok (node b vb 2 (node a va 1 NULL NULL) (node c vc 1 NULL NULL)) := by
    rw [insert]
    simp only [n3, n4, hac, gt_iff_lt, if_true, if_false, e3r]
    simp [update_height, insert_rebalance, balance_factor, height, e4]
  have e1 : insert (NULL : AVL_Node V) a va = .ok (create_node a va) := rfl
  refine ⟨?_, by simp [balance_factor, height], by simp [balance_factor, height], e4, ?_⟩
  · simp only [insert_all, e1, e2]
  · simp only [insert_all, e1, e2, e3]

theorem insert_three_ascending_witness :
    (10 : Int) < 20 ∧ (20 : Int) < 30 ∧
    (insert_all [((10 : Int), (1 : Nat)), (20, 2)] NULL = .ok (node 10 1 2 NULL (node 20 2 1 NULL NULL)) ∧
    balance_factor (node 10 (1 : Nat) 3 NULL (node 20 2 2 NULL (node 30 3 1 NULL NULL))) = -2 ∧
    ¬ balance_factor (node 20 (2 : Nat) 2 NULL (node 30 3 1 NULL NULL)) > 0 ∧
    left_rotation (node 10 (1 : Nat) 3 NULL (node 20 2 2 NULL (node 30 3 1 NULL NULL))) =
      .ok (node 20 2 2 (node 10 1 1 NULL NULL) (node 30 3 1 NULL NULL), node 10 1 1 NULL NULL) ∧
    insert_all [((10 : Int), (1 : Nat)), (20, 2), (30, 3)] NULL =
      .ok (node 20 2 2 (node 10 1 1 NULL NULL) (node 30 3 1 NULL NULL))) :=
  ⟨by decide, by decide, insert_three_ascending 10 20 30 1 2 3 (by decide) (by decide)⟩

/-- C20: on a tree satisfying the balance and height invariants, the height of the tree
`insert` returns is the height of the old tree or one more; so next to a sibling whose height
differed by at most 1 the balance factor is off by at most 2. -/
theorem insert_height_step (t : AVL_Node V) (k : Int) (v : V)
    (hbal : Balanced t) (hh : HeightOK t) :
    ∃ t1, insert t k v = .ok t1 ∧ (height t1 = height t ∨ height t1 = height t + 1) ∧
      realHeight t1 = height t1 ∧
      ∀ s : AVL_Node V, |height t - height s| ≤ 1 →
        |height t1 - height s| ≤ 2 ∧ |height s - height t1| ≤ 2 := by
  obtain ⟨t1, e, hh1, hb1, -⟩ := insert_spec k v t hh
  obtain ⟨-, hstep⟩ := hb1 hbal
  refine ⟨t1, e, hstep, (heightOK_real t1 hh1).1.symm, ?_⟩
  intro s hs
  rw [abs_le] at hs ⊢
  rw [abs_le]
  omega

theorem insert_height_step_witness :
    Balanced ex_scenario ∧ HeightOK ex_scenario ∧
    ∃ t1, insert ex_scenario 27 5 = .ok t1 ∧
      (height t1 = height ex_scenario ∨ height t1 = height ex_scenario + 1) ∧
      realHeight t1 = height t1 ∧
      ∀ s : AVL_Node Nat, |height ex_scenario - height s| ≤ 1 →
        |height t1 - height s| ≤ 2 ∧ |height s - height t1| ≤ 2 :=
  ⟨by decide, by decide, insert_height_step ex_scenario 27 5 (by decide) (by decide)⟩

end AVL
